import Mathlib

/-!
# Dependency tree generator: `fetchDependencies` and `populateDependencyTree`

A shallow embedding of `main.go`.  The external collaborators (the file
system, `ls | grep go.mod`, the `go list | jq` pipeline, `go mod tidy` and
`json.Unmarshal`) are the fields of an environment `Env`; the process state
(`Proc`) carries the working directory and a ghost trace of the external
calls made so far.  Go slices are `Option (List _)`, with `none` the nil
slice.  The recursion of `populateDependencyTree` is bounded by a fuel
argument: `none` means that the fuel ran out.
-/

namespace DepTree

/-! ## Data model and external collaborators -/

/-- A Go `error` value, by its message. -/
abbrev GoError := String

/-- A Go slice; `none` is the nil slice. -/
abbrev Slice (α : Type) := Option (List α)

/-- Go `len`. -/
def Slice.len {α : Type} : Slice α → Nat
  | none => 0
  | some l => l.length

/-- Go `append(s, x)`: the result is never nil. -/
def Slice.push {α : Type} : Slice α → α → Slice α
  | none, x => some [x]
  | some l, x => some (l ++ [x])

/-- The elements of a slice. -/
def Slice.elems {α : Type} : Slice α → List α
  | none => []
  | some l => l

/-- The struct `Artifact` with its fields `Name`, `Version` and
`Dependencies []*Artifact`. -/
inductive Artifact where
  | mk (Name : String) (Version : String) (Dependencies : Option (List Artifact))

/-- Field `Name`. -/
def Artifact.Name : Artifact → String
  | .mk n _ _ => n

/-- Field `Version`. -/
def Artifact.Version : Artifact → String
  | .mk _ v _ => v

/-- Field `Dependencies`. -/
def Artifact.Dependencies : Artifact → Option (List Artifact)
  | .mk _ _ d => d

/-- The assignment `artifact.Dependencies = d`. -/
def Artifact.setDependencies : Artifact → Option (List Artifact) → Artifact
  | .mk n v _, d => .mk n v d

/-- The struct `ArtifactWithDir`: an embedded `Artifact` and `Dir`. -/
structure ArtifactWithDir where
  Artifact : Artifact
  Dir : String

/-- The three external commands that `fetchDependencies` runs. -/
inductive Cmd where
  /-- The manifest check, `bash -c "ls | grep go.mod"`. -/
  | lsGrep
  /-- The module listing, `go list -m -json all` piped through `jq`. -/
  | goList
  /-- The reconciliation, `go mod tidy`. -/
  | goModTidy
  deriving DecidableEq, Repr

/-- An external effect: a call of `os.Chdir`, or a command started in a
working directory. -/
inductive Call where
  | chdir (Dir : String)
  | exec (cmd : Cmd) (cwd : String)
  deriving DecidableEq, Repr

/-- The process state: the working directory and the calls made so far
(oldest first). -/
structure Proc where
  cwd : String
  trace : List Call
  deriving DecidableEq, Repr

/-- The external collaborators.  Directories are named by absolute paths
(the values of `os.Getwd` and of the `Dir` fields of the listing), and every
command is a function of the directory it is started in. -/
structure Env where
  /-- The call `os.Chdir(d)` succeeds: `d` is an existing directory. -/
  dirExists : String → Bool
  /-- The entry names that `ls` prints in a directory, one per line. -/
  ls : String → List String
  /-- Combined output and error of the `go list | jq` pipeline. -/
  goList : String → String × Option GoError
  /-- Combined output and error of `go mod tidy`. -/
  goModTidy : String → String × Option GoError
  /-- Decoding by `json.Unmarshal` into a `[]*ArtifactWithDir`; a JSON
  `null` element is a nil pointer (`none`). -/
  unmarshal : String → Except GoError (List (Option ArtifactWithDir))

/-- How a Go function call ends: it returns, or it panics. -/
inductive Outcome (α : Type) where
  | ret (a : α)
  | panic

/-- The three values that `fetchDependencies` returns. -/
structure FetchResult where
  artifacts : Slice Artifact
  dirs : Slice String
  err : Option GoError

/-! ## The program -/

/-- The regular expression `go.mod` matches at the head of the line. -/
def matchesHere : List Char → Bool
  | 'g' :: 'o' :: _ :: 'm' :: 'o' :: 'd' :: _ => true
  | _ => false

/-- The command `grep go.mod` selects the line: the regular expression matches
somewhere in it. -/
def grepGoMod : List Char → Bool
  | [] => false
  | c :: cs => matchesHere (c :: cs) || grepGoMod cs

/-- The output of `ls | grep go.mod`: the selected lines. -/
def lsGrepOutput (names : List String) : String :=
  String.join ((names.filter (fun n => grepGoMod n.data)).map (fun n => n ++ "\n"))

/-- The call `os.Chdir(Dir)`, its error ignored as in the source. -/
def chdir (env : Env) (Dir : String) (p : Proc) : Proc :=
  { cwd := if env.dirExists Dir then Dir else p.cwd,
    trace := p.trace ++ [Call.chdir Dir] }

/-- Start an external command in the current working directory. -/
def exec (cmd : Cmd) (p : Proc) : Proc :=
  { p with trace := p.trace ++ [Call.exec cmd p.cwd] }

/-- The loop at the end of `fetchDependencies`: both slices grow by one
element per parsed entry; `&artwithdir.Artifact` on a nil entry panics. -/
def splitEntries : List (Option ArtifactWithDir) → Slice Artifact → Slice String →
    Outcome (Slice Artifact × Slice String)
  | [], arts, dirs => .ret (arts, dirs)
  | none :: _, _, _ => .panic
  | some e :: rest, arts, dirs => splitEntries rest (arts.push e.Artifact) (dirs.push e.Dir)

/-- The function `fetchDependencies(Dir string) ([]*Artifact, []*string, error)`. -/
def fetchDependencies (env : Env) (Dir : String) (p : Proc) : Outcome FetchResult × Proc :=
  let p := chdir env Dir p
  let p := exec .lsGrep p
  let output := lsGrepOutput (env.ls p.cwd)
  if output = "" then
    (.ret ⟨none, some [], none⟩, p)
  else
    let p := exec .goList p
    match (env.goList p.cwd).2 with
    | some err => (.ret ⟨none, some [], some err⟩, p)
    | none =>
      let p := exec .goModTidy p
      -- `output, err = cmd.CombinedOutput()`: the listing is overwritten
      let output := (env.goModTidy p.cwd).1
      match (env.goModTidy p.cwd).2 with
      | some err => (.ret ⟨none, some [], some err⟩, p)
      | none =>
        match env.unmarshal output with
        | .error err => (.ret ⟨none, some [], some err⟩, p)
        | .ok artifactsWithDir =>
          match splitEntries artifactsWithDir none none with
          | .panic => (.panic, p)
          | .ret (artifactswithoutdir, dependencyDirectoryValues) =>
            (.ret ⟨artifactswithoutdir, dependencyDirectoryValues, none⟩, p)

/-- What a call of `populateDependencyTree` leaves: the artifact behind the
pointer and the returned error. -/
abbrev PopResult := Outcome (Artifact × Option GoError) × Proc

/-- The `for i, dep := range immediateDeps` loop of
`populateDependencyTree`, from index `i` on; `self` is the recursive call.
The result lists the artifacts behind the pointers visited so far. -/
def populateEach (self : Artifact → String → Proc → Option PopResult)
    (dependencyDirectoryValues : Slice String) :
    Nat → List Artifact → Proc → Option (Outcome (List Artifact × Option GoError) × Proc)
  | _, [], p => some (.ret ([], none), p)
  | i, dep :: rest, p =>
    match dependencyDirectoryValues.elems[i]? with
    | none => some (.panic, p)
    | some dir =>
      match self dep dir p with
      | none => none
      | some (.panic, p) => some (.panic, p)
      | some (.ret (dep, some err), p) => some (.ret (dep :: rest, some err), p)
      | some (.ret (dep, none), p) =>
        match populateEach self dependencyDirectoryValues (i + 1) rest p with
        | none => none
        | some (.panic, p) => some (.panic, p)
        | some (.ret (rest, err), p) => some (.ret (dep :: rest, err), p)

/-- The function `populateDependencyTree(artifact *Artifact, Dir string) error`. -/
def populateDependencyTree (env : Env) : Nat → Artifact → String → Proc → Option PopResult
  | 0, _, _, _ => none
  | fuel + 1, artifact, Dir, p =>
    match fetchDependencies env Dir p with
    | (.panic, p) => some (.panic, p)
    | (.ret ⟨_, _, some err⟩, p) => some (.ret (artifact, some err), p)
    | (.ret ⟨none, _, none⟩, p) => some (.ret (artifact.setDependencies (some []), none), p)
    | (.ret ⟨some immediateDeps, dependencyDirectoryValues, none⟩, p) =>
      match populateEach (populateDependencyTree env fuel) dependencyDirectoryValues
          0 immediateDeps p with
      | none => none
      | some (.panic, p) => some (.panic, p)
      | some (.ret (_, some err), p) => some (.ret (artifact, some err), p)
      | some (.ret (immediateDeps, none), p) =>
        some (.ret (artifact.setDependencies (some immediateDeps), none), p)

/-- The loop of `main` over the top-level artifacts, from index `i` on:
`populateDependencyTree(artifact, *dirs[i])`, `panic(err)` on an error,
else `append(artifactswithoutdir, artifact)`. -/
def populateForest (env : Env) (fuel : Nat) (dirs : Slice String) :
    Nat → List Artifact → Slice Artifact → Proc → Option (Outcome (Slice Artifact) × Proc)
  | _, [], artifactswithoutdir, p => some (.ret artifactswithoutdir, p)
  | i, artifact :: rest, artifactswithoutdir, p =>
    match dirs.elems[i]? with
    | none => some (.panic, p)
    | some dir =>
      match populateDependencyTree env fuel artifact dir p with
      | none => none
      | some (.panic, p) => some (.panic, p)
      | some (.ret (_, some _), p) => some (.panic, p)
      | some (.ret (artifact, none), p) =>
        populateForest env fuel dirs (i + 1) rest (artifactswithoutdir.push artifact) p

/-! ## Specification side -/

/-- What `fetchDependencies` returns when the working directory is `c`
once its `os.Chdir` is done. -/
def resolveAt (env : Env) (c : String) : Outcome FetchResult :=
  (fetchDependencies env c ⟨c, []⟩).1

/-- Every directory that the resolver returns exists. -/
def DirsExist (env : Env) : Prop :=
  ∀ c arts dirs err, resolveAt env c = .ret ⟨arts, some dirs, err⟩ →
    ∀ d ∈ dirs, env.dirExists d = true

/-- Directory `d` lists a dependency installed at directory `d2`. -/
def Lists (env : Env) (d d2 : String) : Prop :=
  ∃ arts dirs, resolveAt env d = .ret ⟨some arts, some dirs, none⟩ ∧ d2 ∈ dirs

/-- The children of an unfolding: the i-th child has the name and version
of the i-th artifact and the unfolding `f` of the i-th directory. -/
def unfoldKids (f : String → Option (List Artifact)) :
    List Artifact → List String → Option (List Artifact)
  | [], [] => some []
  | a :: as, d :: ds =>
    match f d, unfoldKids f as ds with
    | some sub, some rest => some (.mk a.Name a.Version (some sub) :: rest)
    | _, _ => none
  | _, _ => none

/-- The recursive unfolding of the resolver at a directory, to a depth of
at most `n`; `none` when the resolver fails somewhere or the depth does not
suffice. -/
def unfoldTree (env : Env) : Nat → String → Option (List Artifact)
  | 0, _ => none
  | n + 1, d =>
    match resolveAt env d with
    | .ret ⟨none, _, none⟩ => some []
    | .ret ⟨some arts, some dirs, none⟩ => unfoldKids (unfoldTree env n) arts dirs
    | _ => none

/-- The directories of the unfolding in depth-first pre-order, one entry
per occurrence. -/
def dirPreorder (env : Env) : Nat → String → List String
  | 0, _ => []
  | n + 1, d =>
    d :: match resolveAt env d with
      | .ret ⟨some _, some dirs, none⟩ => dirs.flatMap (dirPreorder env n)
      | _ => []

/-- The directories that `os.Chdir` was called with, in call order: one per
call of `fetchDependencies`. -/
def visited : List Call → List String
  | [] => []
  | .chdir d :: t => d :: visited t
  | .exec _ _ :: t => visited t

/-- The working directories in which commands were started. -/
def execDirs : List Call → List String
  | [] => []
  | .chdir _ :: t => execDirs t
  | .exec _ c :: t => c :: execDirs t

mutual
/-- No node of the tree has a nil `Dependencies`. -/
def Artifact.allSet : Artifact → Bool
  | .mk _ _ none => false
  | .mk _ _ (some l) => allSetList l
/-- Every tree of the list satisfies `Artifact.allSet`. -/
def allSetList : List Artifact → Bool
  | [] => true
  | a :: as => a.allSet && allSetList as
end

/-- The node reached from `a` by following child indices. -/
def nodeAt : Artifact → List Nat → Option Artifact
  | a, [] => some a
  | a, i :: path =>
    match a.Dependencies with
    | none => none
    | some deps =>
      match deps[i]? with
      | none => none
      | some child => nodeAt child path

/-- The artifact and directory that the resolver reports along a path of
child indices, starting from artifact `a` at directory `d`. -/
def entryAt (env : Env) : Artifact → String → List Nat → Option (Artifact × String)
  | a, d, [] => some (a, d)
  | _, d, i :: path =>
    match resolveAt env d with
    | .ret ⟨some arts, some dirs, none⟩ =>
      match arts[i]?, dirs[i]? with
      | some a, some d2 => entryAt env a d2 path
      | _, _ => none
    | _ => none

/-- Every resolver call recorded in the trace returned without an error:
each call runs `ls | grep go.mod` exactly once, in the directory it resolves. -/
def AllOk (env : Env) (t : List Call) : Prop :=
  ∀ c, Call.exec .lsGrep c ∈ t → ∃ r, resolveAt env c = .ret r ∧ r.err = none

/-- How the state after a traversal relates to the state before it.  On
success the trace grew by successful resolver calls only.  On error `e` the
final state is the one in which a resolver call returned `e`, and all the
calls before that one succeeded. -/
def TraceSpec (env : Env) (p : Proc) (err : Option GoError) (p' : Proc) : Prop :=
  match err with
  | none => ∃ t, p'.trace = p.trace ++ t ∧ AllOk env t
  | some e => ∃ d q t0 arts dirs, q.trace = p.trace ++ t0 ∧ AllOk env t0 ∧
      fetchDependencies env d q = (.ret ⟨arts, dirs, some e⟩, p')

/-- The relation `R` holds for the directories of a list one after the
other, each step starting in the state that the previous one left. -/
def chainAll (R : String → Proc → Proc → Prop) : List String → Proc → Proc → Prop
  | [], q, q' => q' = q
  | d :: ds, q, q' => ∃ q1, R d q q1 ∧ chainAll R ds q1 q'

/-- The traversal that starts with the resolver call for `Dir` in state `p`
nests at most `n` deep, makes only resolver calls that return without an
error, and ends in state `p'`: the call for `Dir` comes first, then the
traversals of the returned directories, in the returned order. -/
def Completes (env : Env) : Nat → String → Proc → Proc → Prop
  | 0, _, _, _ => False
  | n + 1, Dir, p, p' =>
    match fetchDependencies env Dir p with
    | (.ret ⟨none, _, none⟩, p1) => p' = p1
    | (.ret ⟨some arts, dirs, none⟩, p1) =>
      arts.length ≤ dirs.elems.length ∧
        chainAll (Completes env n) (dirs.elems.take arts.length) p1 p'
    | _ => False

/-- The traversal that starts with the resolver call for `Dir` in state `p`
reaches, at a depth of at most `n`, a resolver call that returns the error
`e` and leaves the state `p'`: either the call for `Dir` itself, or a call
reached in the traversal of the k-th returned directory after the
traversals of the directories before it have completed. -/
def FailsAt (env : Env) : Nat → String → Proc → GoError → Proc → Prop
  | 0, _, _, _, _ => False
  | n + 1, Dir, p, e, p' =>
    match fetchDependencies env Dir p with
    | (.ret ⟨_, _, some err⟩, p1) => err = e ∧ p' = p1
    | (.ret ⟨some arts, dirs, none⟩, p1) =>
      ∃ k d q, k < arts.length ∧ dirs.elems[k]? = some d ∧
        chainAll (Completes env n) (dirs.elems.take k) p1 q ∧ FailsAt env n d q e p'
    | _ => False

/-! ## Concrete environments -/

/-- The text that decodes to the two dependencies `P` and `Q`. -/
def jsonPQ : String :=
  "[\x7b\"Path\":\"P\",\"Version\":\"v1\",\"Dir\":\"/p\"\x7d,\x7b\"Path\":\"Q\",\"Version\":\"v2\",\"Dir\":\"/q\"\x7d]"

/-- The text that decodes to the single dependency `R`. -/
def jsonR : String :=
  "[\x7b\"Path\":\"R\",\"Version\":\"v1\",\"Dir\":\"/r\"\x7d]"

/-- A project at `/root` with the dependencies `P` (at `/p`, no manifest)
and `Q` (at `/q`), where `Q` has the dependency `R` (at `/r`, no manifest).
The decoded texts are the ones that `go mod tidy` prints here. -/
def envPQR : Env where
  dirExists := fun d => d == "/root" || d == "/p" || d == "/q" || d == "/r"
  ls := fun d =>
    if d = "/root" then ["go.mod", "go.sum", "main.go"]
    else if d = "/q" then ["go.mod", "q.go"]
    else if d = "/p" then ["p.go"]
    else if d = "/r" then ["r.go"]
    else []
  goList := fun d =>
    if d = "/root" then (jsonPQ, none)
    else if d = "/q" then (jsonR, none)
    else ("", some "exit status 1")
  goModTidy := fun d =>
    if d = "/root" then (jsonPQ, none)
    else if d = "/q" then (jsonR, none)
    else ("", some "exit status 1")
  unmarshal := fun s =>
    if s = jsonPQ then .ok [some ⟨.mk "P" "v1" none, "/p"⟩, some ⟨.mk "Q" "v2" none, "/q"⟩]
    else if s = jsonR then .ok [some ⟨.mk "R" "v1" none, "/r"⟩]
    else if s = "" then .error "unexpected end of JSON input"
    else .error "invalid character"

/-- The state before a traversal. -/
def procStart : Proc := ⟨"/root", []⟩

/-- The tree that the traversal of `envPQR` builds below the root. -/
def treePQR : List Artifact :=
  [.mk "P" "v1" (some []), .mk "Q" "v2" (some [.mk "R" "v1" (some [])])]

/-- The state after the traversal of `envPQR` from `/root`. -/
def procEndPQR : Proc :=
  ⟨"/r", [.chdir "/root", .exec .lsGrep "/root", .exec .goList "/root",
    .exec .goModTidy "/root", .chdir "/p", .exec .lsGrep "/p", .chdir "/q",
    .exec .lsGrep "/q", .exec .goList "/q", .exec .goModTidy "/q", .chdir "/r",
    .exec .lsGrep "/r"]⟩

/-- What `fetchDependencies` returns at `/root` in `envPQR`. -/
def resultRoot : FetchResult :=
  ⟨some [.mk "P" "v1" none, .mk "Q" "v2" none], some ["/p", "/q"], none⟩

/-- The state after `fetchDependencies` at `/root`, called in `procStart`,
in `envPQR` and in `envFail`. -/
def procAfterRoot : Proc :=
  ⟨"/root", [.chdir "/root", .exec .lsGrep "/root", .exec .goList "/root",
    .exec .goModTidy "/root"]⟩

/-- The state after `fetchDependencies` at `/p`, called after the one at
`/root`, in `envPQR` and in `envFail`. -/
def procAfterP : Proc :=
  ⟨"/p", [.chdir "/root", .exec .lsGrep "/root", .exec .goList "/root",
    .exec .goModTidy "/root", .chdir "/p", .exec .lsGrep "/p"]⟩

/-- The text that decodes to the three dependencies `P`, `Q` and `S`. -/
def jsonPQS : String :=
  "[\x7b\"Path\":\"P\",\"Version\":\"v1\",\"Dir\":\"/p\"\x7d,\x7b\"Path\":\"Q\",\"Version\":\"v2\",\"Dir\":\"/q\"\x7d,\x7b\"Path\":\"S\",\"Version\":\"v3\",\"Dir\":\"/s\"\x7d]"

/-- A project whose second dependency `Q` has a manifest but a failing
`go mod tidy`; the third dependency `S` comes after it. -/
def envFail : Env where
  dirExists := fun d => d == "/root" || d == "/p" || d == "/q" || d == "/s"
  ls := fun d =>
    if d = "/root" then ["go.mod", "main.go"]
    else if d = "/q" then ["go.mod"]
    else if d = "/s" then ["go.mod"]
    else []
  goList := fun d =>
    if d = "/q" then ("go: errors parsing go.mod\n[]\n", none) else ("[]", none)
  goModTidy := fun d =>
    if d = "/root" then (jsonPQS, none)
    else if d = "/q" then ("go: errors parsing go.mod\n", some "exit status 1")
    else ("", none)
  unmarshal := fun s =>
    if s = jsonPQS then .ok [some ⟨.mk "P" "v1" none, "/p"⟩, some ⟨.mk "Q" "v2" none, "/q"⟩,
      some ⟨.mk "S" "v3" none, "/s"⟩]
    else .error "unexpected end of JSON input"

/-- The state in which the traversal of `envFail` stops. -/
def procEndFail : Proc :=
  ⟨"/q", [.chdir "/root", .exec .lsGrep "/root", .exec .goList "/root",
    .exec .goModTidy "/root", .chdir "/p", .exec .lsGrep "/p", .chdir "/q",
    .exec .lsGrep "/q", .exec .goList "/q", .exec .goModTidy "/q"]⟩

/-- The text that decodes to the single dependency `C`. -/
def jsonC : String :=
  "[\x7b\"Path\":\"C\",\"Version\":\"v1\",\"Dir\":\"/c\"\x7d]"

/-- The text that decodes to the single dependency `D`. -/
def jsonD : String :=
  "[\x7b\"Path\":\"D\",\"Version\":\"v1\",\"Dir\":\"/d\"\x7d]"

/-- Two top-level dependencies `A` (at `/a`) and `B` (at `/b`) that both
depend on `C` (at `/c`), which depends on `D` (at `/d`, no manifest). -/
def envDiamond : Env where
  dirExists := fun d => d == "/a" || d == "/b" || d == "/c" || d == "/d"
  ls := fun d =>
    if d = "/a" then ["a.go", "go.mod"]
    else if d = "/b" then ["b.go", "go.mod"]
    else if d = "/c" then ["c.go", "go.mod"]
    else if d = "/d" then ["d.go"]
    else []
  goList := fun _ => ("[]", none)
  goModTidy := fun d =>
    if d = "/a" then (jsonC, none)
    else if d = "/b" then (jsonC, none)
    else if d = "/c" then (jsonD, none)
    else ("", none)
  unmarshal := fun s =>
    if s = jsonC then .ok [some ⟨.mk "C" "v1" none, "/c"⟩]
    else if s = jsonD then .ok [some ⟨.mk "D" "v1" none, "/d"⟩]
    else .error "unexpected end of JSON input"

/-- The subtree of `C` in `envDiamond`. -/
def nodeC : Artifact := .mk "C" "v1" (some [.mk "D" "v1" (some [])])

/-- The forest that the loop of `main` builds in `envDiamond`. -/
def forestDiamond : Slice Artifact :=
  some [.mk "A" "v1" (some [nodeC]), .mk "B" "v1" (some [nodeC])]

/-- The state after the loop of `main` in `envDiamond`. -/
def procEndDiamond : Proc :=
  ⟨"/d", [.chdir "/a", .exec .lsGrep "/a", .exec .goList "/a", .exec .goModTidy "/a",
    .chdir "/c", .exec .lsGrep "/c", .exec .goList "/c", .exec .goModTidy "/c",
    .chdir "/d", .exec .lsGrep "/d",
    .chdir "/b", .exec .lsGrep "/b", .exec .goList "/b", .exec .goModTidy "/b",
    .chdir "/c", .exec .lsGrep "/c", .exec .goList "/c", .exec .goModTidy "/c",
    .chdir "/d", .exec .lsGrep "/d"]⟩

/-- The text that the `go list | jq` pipeline prints for one direct
dependency `P`. -/
def jsonP : String :=
  "[\x7b\"Path\":\"P\",\"Version\":\"v1\",\"Dir\":\"/p\"\x7d]"

/-- A project at `/proj` whose module listing, filtered to the direct
non-root entries, holds the dependency `P`, and where `go mod tidy`
succeeds and prints nothing. -/
def envListing : Env where
  dirExists := fun d => d == "/proj" || d == "/p"
  ls := fun d => if d = "/proj" then ["go.mod", "go.sum", "main.go"] else []
  goList := fun d => if d = "/proj" then (jsonP, none) else ("", some "exit status 1")
  goModTidy := fun d => if d = "/proj" then ("", none) else ("", some "exit status 1")
  unmarshal := fun s =>
    if s = jsonP then .ok [some ⟨.mk "P" "v1" none, "/p"⟩]
    else if s = "" then .error "unexpected end of JSON input"
    else .error "invalid character"

/-- The state after `fetchDependencies` at `/proj` in `envListing`. -/
def procEndListing : Proc :=
  ⟨"/proj", [.chdir "/proj", .exec .lsGrep "/proj", .exec .goList "/proj",
    .exec .goModTidy "/proj"]⟩

/-- A directory `/dep` without a file named `go.mod`, holding a file named
`go.mod.bak`; no module is found there by `go`. -/
def envBak : Env where
  dirExists := fun d => d == "/dep"
  ls := fun d => if d = "/dep" then ["dep.go", "go.mod.bak"] else []
  goList := fun _ =>
    ("go: go.mod file not found in current directory or any parent directory\n[]\n", none)
  goModTidy := fun _ =>
    ("go: go.mod file not found in current directory or any parent directory\n",
      some "exit status 1")
  unmarshal := fun _ => .error "invalid character"

/-- The state after `fetchDependencies` at `/dep` in `envBak`. -/
def procEndBak : Proc :=
  ⟨"/dep", [.chdir "/dep", .exec .lsGrep "/dep", .exec .goList "/dep",
    .exec .goModTidy "/dep"]⟩

/-! ## The resolver -/

theorem visited_append (s t : List Call) : visited (s ++ t) = visited s ++ visited t := by
  induction s with
  | nil => rfl
  | cons c s ih => cases c <;> simp [visited, ih]

theorem splitEntries_some : ∀ (l : List (Option ArtifactWithDir)) (xs : List Artifact)
    (ys : List String) (a : Slice Artifact) (d : Slice String),
    splitEntries l (some xs) (some ys) = .ret (a, d) →
    ∃ es : List ArtifactWithDir, l = es.map some ∧
      a = some (xs ++ es.map (fun e => e.Artifact)) ∧ d = some (ys ++ es.map (fun e => e.Dir)) := by
  intro l
  induction l with
  | nil =>
    intro xs ys a d h
    simp only [splitEntries, Outcome.ret.injEq, Prod.mk.injEq] at h
    exact ⟨[], rfl, by simp [h.1.symm], by simp [h.2.symm]⟩
  | cons e rest ih =>
    intro xs ys a d h
    cases e with
    | none => simp [splitEntries] at h
    | some e =>
      simp only [splitEntries, Slice.push] at h
      obtain ⟨es, h1, h2, h3⟩ := ih _ _ _ _ h
      exact ⟨e :: es, by simp [h1], by simp [h2], by simp [h3]⟩

theorem splitEntries_none (l : List (Option ArtifactWithDir))
    (a : Slice Artifact) (d : Slice String) (h : splitEntries l none none = .ret (a, d)) :
    (l = [] ∧ a = none ∧ d = none) ∨
    ∃ (e : ArtifactWithDir) (es : List ArtifactWithDir), l = (e :: es).map some ∧
      a = some ((e :: es).map (fun e => e.Artifact)) ∧
      d = some ((e :: es).map (fun e => e.Dir)) := by
  cases l with
  | nil =>
    simp only [splitEntries, Outcome.ret.injEq, Prod.mk.injEq] at h
    exact Or.inl ⟨rfl, h.1.symm, h.2.symm⟩
  | cons e rest =>
    cases e with
    | none => simp [splitEntries] at h
    | some e =>
      simp only [splitEntries, Slice.push] at h
      obtain ⟨es, h1, h2, h3⟩ := splitEntries_some _ _ _ _ _ h
      exact Or.inr ⟨e, es, by simp [h1], by simpa using h2, by simpa using h3⟩

/-- The state after `fetchDependencies`: the working directory is the one
that `os.Chdir` left, and the trace grew by the `os.Chdir` and by commands
started in that directory. -/
theorem fetch_state (env : Env) (Dir : String) (p : Proc) :
    (fetchDependencies env Dir p).2.cwd = (chdir env Dir p).cwd ∧
    ∃ t, (fetchDependencies env Dir p).2.trace = p.trace ++ Call.chdir Dir :: t ∧
      visited t = [] ∧ ∀ c ∈ execDirs t, c = (chdir env Dir p).cwd := by
  unfold fetchDependencies
  simp only []
  split
  · exact ⟨rfl, [Call.exec .lsGrep (chdir env Dir p).cwd],
      by simp [exec, chdir], by simp [visited], by simp [execDirs]⟩
  · split
    · exact ⟨rfl, [Call.exec .lsGrep (chdir env Dir p).cwd, Call.exec .goList (chdir env Dir p).cwd],
        by simp [exec, chdir], by simp [visited], by simp [execDirs]⟩
    · have h3 : ∃ t, (exec .goModTidy (exec .goList (exec .lsGrep (chdir env Dir p)))).trace
            = p.trace ++ Call.chdir Dir :: t ∧
          visited t = [] ∧ ∀ c ∈ execDirs t, c = (chdir env Dir p).cwd :=
        ⟨[Call.exec .lsGrep (chdir env Dir p).cwd, Call.exec .goList (chdir env Dir p).cwd,
          Call.exec .goModTidy (chdir env Dir p).cwd],
          by simp [exec, chdir], by simp [visited], by simp [execDirs]⟩
      split
      · exact ⟨rfl, h3⟩
      · split
        · exact ⟨rfl, h3⟩
        · split
          · exact ⟨rfl, h3⟩
          · exact ⟨rfl, h3⟩

/-- The values returned by `fetchDependencies` depend only on the working
directory that its `os.Chdir` leaves. -/
theorem fetch_fst (env : Env) (Dir : String) (p : Proc) :
    (fetchDependencies env Dir p).1 = resolveAt env (chdir env Dir p).cwd := by
  have hc : (chdir env (chdir env Dir p).cwd ⟨(chdir env Dir p).cwd, []⟩).cwd
      = (chdir env Dir p).cwd := by
    simp [chdir]
  unfold resolveAt fetchDependencies
  simp only [exec, hc]
  repeat' split
  all_goals rfl

/-- The shapes of a returned resolver result: an early return with a nil
artifact slice and an empty directory slice, a parsed empty list (both
slices nil), or a parsed non-empty list split into its two columns. -/
theorem resolveAt_shape (env : Env) (c : String) (r : FetchResult)
    (h : resolveAt env c = .ret r) :
    (r.artifacts = none ∧ r.dirs = some []) ∨
    (r.artifacts = none ∧ r.dirs = none ∧ r.err = none) ∨
    ∃ (e : ArtifactWithDir) (es : List ArtifactWithDir),
      r.artifacts = some ((e :: es).map (fun e => e.Artifact)) ∧
      r.dirs = some ((e :: es).map (fun e => e.Dir)) ∧ r.err = none ∧
      lsGrepOutput (env.ls c) ≠ "" ∧
      env.unmarshal (env.goModTidy c).1 = .ok ((e :: es).map some) := by
  have hc : (chdir env c ⟨c, []⟩).cwd = c := by simp [chdir]
  unfold resolveAt fetchDependencies at h
  simp only [exec, hc] at h
  split at h
  · simp only [Outcome.ret.injEq] at h
    subst h
    exact Or.inl ⟨rfl, rfl⟩
  · rename_i hne
    split at h
    · simp only [Outcome.ret.injEq] at h
      subst h
      exact Or.inl ⟨rfl, rfl⟩
    · split at h
      · simp only [Outcome.ret.injEq] at h
        subst h
        exact Or.inl ⟨rfl, rfl⟩
      · split at h
        · simp only [Outcome.ret.injEq] at h
          subst h
          exact Or.inl ⟨rfl, rfl⟩
        · rename_i l hl
          split at h
          · simp at h
          · rename_i a d hs
            simp only [Outcome.ret.injEq] at h
            subst h
            rcases splitEntries_none l a d hs with ⟨_, ha, hd⟩ | ⟨e, es, h1, h2, h3⟩
            · exact Or.inr (Or.inl ⟨ha, hd, rfl⟩)
            · exact Or.inr (Or.inr ⟨e, es, h2, h3, rfl, hne, by rw [hl, h1]⟩)

/-- The two returned slices have the same length. -/
theorem resolveAt_len (env : Env) (c : String) (r : FetchResult)
    (h : resolveAt env c = .ret r) : r.artifacts.len = r.dirs.len := by
  rcases resolveAt_shape env c r h with ⟨h1, h2⟩ | ⟨h1, h2, _⟩ | ⟨e, es, h1, h2, _⟩
  · rw [h1, h2]; rfl
  · rw [h1, h2]; rfl
  · rw [h1, h2]; simp [Slice.len]

theorem chdir_cwd_of_exists (env : Env) (Dir : String) (p : Proc)
    (h : env.dirExists Dir = true) : (chdir env Dir p).cwd = Dir := by
  simp [chdir, h]

theorem setDependencies_eq (a : Artifact) (d : Option (List Artifact)) :
    a.setDependencies d = .mk a.Name a.Version d := by
  cases a; rfl

/-- A non-nil artifact slice is returned without an error, together with
a directory slice of the same length, and is not empty. -/
theorem resolveAt_some (env : Env) (c : String) (al : List Artifact) (dirs : Slice String)
    (err : Option GoError) (h : resolveAt env c = .ret ⟨some al, dirs, err⟩) :
    ∃ dl, dirs = some dl ∧ al.length = dl.length ∧ err = none ∧ al ≠ [] := by
  rcases resolveAt_shape env c _ h with ⟨h1, _⟩ | ⟨h1, _⟩ | ⟨e, es, h1, h2, h3, _, _⟩
  · simp at h1
  · simp at h1
  · simp only [Option.some.injEq] at h1
    simp only at h2 h3
    subst h1 h2 h3
    exact ⟨_, rfl, by simp, rfl, by simp⟩

/-- Without a selected line the resolver returns at once. -/
theorem resolveAt_noManifest (env : Env) (c : String) (h : lsGrepOutput (env.ls c) = "") :
    resolveAt env c = .ret ⟨none, some [], none⟩ := by
  have hc : (chdir env c ⟨c, []⟩).cwd = c := by simp [chdir]
  unfold resolveAt fetchDependencies
  simp only [exec, hc, h, if_true]

/-- With a selected line, a result without an error is the parsed output
of `go mod tidy`, split into its two columns. -/
theorem resolveAt_parsed (env : Env) (c : String) (r : FetchResult)
    (h : resolveAt env c = .ret r) (herr : r.err = none)
    (hm : lsGrepOutput (env.ls c) ≠ "") :
    ∃ entries : List ArtifactWithDir,
      env.unmarshal (env.goModTidy c).1 = .ok (entries.map some) ∧
      r.artifacts.elems = entries.map (fun e => e.Artifact) ∧
      r.dirs.elems = entries.map (fun e => e.Dir) := by
  have hc : (chdir env c ⟨c, []⟩).cwd = c := by simp [chdir]
  unfold resolveAt fetchDependencies at h
  simp only [exec, hc, hm, if_false] at h
  split at h
  · simp only [Outcome.ret.injEq] at h
    subst h
    simp at herr
  · split at h
    · simp only [Outcome.ret.injEq] at h
      subst h
      simp at herr
    · split at h
      · simp only [Outcome.ret.injEq] at h
        subst h
        simp at herr
      · rename_i l hl
        split at h
        · simp at h
        · rename_i a d hs
          simp only [Outcome.ret.injEq] at h
          subst h
          rcases splitEntries_none l a d hs with ⟨h0, ha, hd⟩ | ⟨e, es, h1, h2, h3⟩
          · exact ⟨[], by rw [hl, h0]; rfl, by rw [ha]; rfl, by rw [hd]; rfl⟩
          · exact ⟨e :: es, by rw [hl, h1], by rw [h2]; rfl, by rw [h3]; rfl⟩

/-! ## Successful traversals -/

/-- A successful run of the loop builds the children of the unfolding and
visits the directories of their unfoldings in order, given that each
recursive call does so. -/
theorem populateEach_success (self : Artifact → String → Proc → Option PopResult)
    (f : String → Option (List Artifact)) (g : String → List String)
    (dirsAll : List String)
    (hself : ∀ a d p a' p', d ∈ dirsAll → self a d p = some (.ret (a', none), p') →
      ∃ sub, f d = some sub ∧ a' = .mk a.Name a.Version (some sub) ∧
        visited p'.trace = visited p.trace ++ g d) :
    ∀ (rest : List Artifact) (i : Nat) (p : Proc) (out : List Artifact) (p' : Proc),
      i + rest.length = dirsAll.length →
      populateEach self (some dirsAll) i rest p = some (.ret (out, none), p') →
      unfoldKids f rest (dirsAll.drop i) = some out ∧
        visited p'.trace = visited p.trace ++ (dirsAll.drop i).flatMap g := by
  intro rest
  induction rest with
  | nil =>
    intro i p out p' hlen h
    simp only [populateEach, Option.some.injEq, Prod.mk.injEq, Outcome.ret.injEq,
      and_true] at h
    have hd : dirsAll.drop i = [] := by
      simp only [List.length_nil, Nat.add_zero] at hlen
      simp [hlen]
    obtain ⟨h1, h2⟩ := h
    subst h1 h2
    simp [hd, unfoldKids]
  | cons dep rest ih =>
    intro i p out p' hlen h
    have hi : i < dirsAll.length := by
      simp only [List.length_cons] at hlen
      omega
    have hd : dirsAll.drop i = dirsAll[i] :: dirsAll.drop (i + 1) :=
      List.drop_eq_getElem_cons hi
    simp only [populateEach, Slice.elems, List.getElem?_eq_getElem hi] at h
    rcases hs : self dep dirsAll[i] p with _ | ⟨o, p1⟩
    · simp [hs] at h
    · cases o with
      | panic => simp [hs] at h
      | ret r =>
        obtain ⟨dep1, e⟩ := r
        cases e with
        | some err => simp [hs] at h
        | none =>
          simp only [hs] at h
          obtain ⟨sub, hsub, hdep, hv⟩ :=
            hself dep dirsAll[i] p dep1 p1 (List.getElem_mem hi) hs
          rcases hr : populateEach self (some dirsAll) (i + 1) rest p1 with _ | ⟨o2, p2⟩
          · simp [hr] at h
          · cases o2 with
            | panic => simp [hr] at h
            | ret r2 =>
              obtain ⟨rest2, e2⟩ := r2
              simp only [hr, Option.some.injEq, Prod.mk.injEq, Outcome.ret.injEq] at h
              obtain ⟨⟨h1, h2⟩, h3⟩ := h
              subst h1 h2 h3
              have hlen2 : i + 1 + rest.length = dirsAll.length := by
                simp only [List.length_cons] at hlen
                omega
              obtain ⟨hk, hv2⟩ := ih (i + 1) p1 rest2 p2 hlen2 hr
              refine ⟨?_, ?_⟩
              · rw [hd]
                simp only [unfoldKids, hsub, hk, hdep]
              · rw [hv2, hv, hd, List.flatMap_cons, List.append_assoc]

/-- A successful `populateDependencyTree` leaves the unfolding of the
resolver at `Dir` in `Dependencies`, keeps the name and the version, and
has called the resolver once per directory occurrence of the unfolding, in
pre-order. -/
theorem populate_success (env : Env) (hex : DirsExist env) :
    ∀ (fuel : Nat) (a : Artifact) (Dir : String) (p : Proc) (a' : Artifact) (p' : Proc),
      env.dirExists Dir = true →
      populateDependencyTree env fuel a Dir p = some (.ret (a', none), p') →
      ∃ deps, unfoldTree env fuel Dir = some deps ∧ a' = .mk a.Name a.Version (some deps) ∧
        visited p'.trace = visited p.trace ++ dirPreorder env fuel Dir := by
  intro fuel
  induction fuel with
  | zero =>
    intro a Dir p a' p' _ h
    simp [populateDependencyTree] at h
  | succ fuel ih =>
    intro a Dir p a' p' hdir h
    have hfst := fetch_fst env Dir p
    obtain ⟨_, t, htr, hvis, _⟩ := fetch_state env Dir p
    rw [chdir_cwd_of_exists env Dir p hdir] at hfst
    rcases hf : fetchDependencies env Dir p with ⟨o, p1⟩
    rw [hf] at hfst htr
    simp only at hfst htr
    have hv1 : visited p1.trace = visited p.trace ++ [Dir] := by
      rw [htr, visited_append]
      simp [visited, hvis]
    cases o with
    | panic => simp [populateDependencyTree, hf] at h
    | ret r =>
      obtain ⟨arts, dirs, err⟩ := r
      cases err with
      | some e => simp [populateDependencyTree, hf] at h
      | none =>
        cases arts with
        | none =>
          simp only [populateDependencyTree, hf, Option.some.injEq, Prod.mk.injEq,
            Outcome.ret.injEq, and_true] at h
          obtain ⟨h1, h2⟩ := h
          subst h1 h2
          refine ⟨[], ?_, setDependencies_eq _ _, ?_⟩
          · simp [unfoldTree, ← hfst]
          · simp [dirPreorder, ← hfst, hv1]
        | some deps =>
          obtain ⟨dl, hdl, hlen, _⟩ := resolveAt_some env Dir deps dirs none hfst.symm
          subst hdl
          simp only [populateDependencyTree, hf] at h
          rcases hr : populateEach (populateDependencyTree env fuel) (some dl) 0 deps p1
            with _ | ⟨o2, p2⟩
          · simp [hr] at h
          · cases o2 with
            | panic => simp [hr] at h
            | ret r2 =>
              obtain ⟨kids, e2⟩ := r2
              cases e2 with
              | some err => simp [hr] at h
              | none =>
                simp only [hr, Option.some.injEq, Prod.mk.injEq, Outcome.ret.injEq,
                  and_true] at h
                obtain ⟨h3, h4⟩ := h
                subst h3 h4
                obtain ⟨hk, hv2⟩ := populateEach_success (populateDependencyTree env fuel)
                  (unfoldTree env fuel) (dirPreorder env fuel) dl
                  (fun a d p a' p' hd hs =>
                    ih a d p a' p' (hex Dir _ _ _ hfst.symm d hd) hs)
                  deps 0 p1 kids p2 (by simpa using hlen) hr
                refine ⟨kids, ?_, setDependencies_eq _ _, ?_⟩
                · simp only [unfoldTree, ← hfst]
                  simpa using hk
                · simp only [dirPreorder, ← hfst]
                  rw [hv2, hv1]
                  simp

/-! ## Errors and the order of external calls -/

theorem AllOk_append (env : Env) (s t : List Call) (hs : AllOk env s) (ht : AllOk env t) :
    AllOk env (s ++ t) := by
  intro c hc
  rcases List.mem_append.1 hc with h | h
  · exact hs c h
  · exact ht c h

theorem mem_execDirs (cmd : Cmd) (c : String) (t : List Call) (h : Call.exec cmd c ∈ t) :
    c ∈ execDirs t := by
  induction t with
  | nil => simp at h
  | cons x t ih =>
    rcases List.mem_cons.1 h with h1 | h1
    · subst h1
      simp [execDirs]
    · cases x with
      | chdir d => simpa [execDirs] using ih h1
      | exec k c2 => simp [execDirs, ih h1]

/-- The commands of one resolver call run in the directory whose resolver
result the call returns. -/
theorem fetch_trace (env : Env) (Dir : String) (p : Proc) :
    ∃ t, (fetchDependencies env Dir p).2.trace = p.trace ++ t ∧
      ∀ cmd c, Call.exec cmd c ∈ t → resolveAt env c = (fetchDependencies env Dir p).1 := by
  obtain ⟨_, t, htr, _, hex⟩ := fetch_state env Dir p
  refine ⟨Call.chdir Dir :: t, htr, ?_⟩
  intro cmd c hc
  rcases List.mem_cons.1 hc with h | h
  · cases h
  · rw [hex c (mem_execDirs cmd c t h), fetch_fst]

theorem TraceSpec_trans (env : Env) (p p1 p2 : Proc) (err : Option GoError)
    (h1 : TraceSpec env p none p1) (h2 : TraceSpec env p1 err p2) :
    TraceSpec env p err p2 := by
  obtain ⟨t, ht, hok⟩ := h1
  cases err with
  | none =>
    obtain ⟨t2, ht2, hok2⟩ := h2
    exact ⟨t ++ t2, by rw [ht2, ht, List.append_assoc], AllOk_append env t t2 hok hok2⟩
  | some e =>
    obtain ⟨d, q, t0, arts, dirs, hq, hok0, hf⟩ := h2
    exact ⟨d, q, t ++ t0, arts, dirs, by rw [hq, ht, List.append_assoc],
      AllOk_append env t t0 hok hok0, hf⟩

theorem populateEach_trace (env : Env) (self : Artifact → String → Proc → Option PopResult)
    (dirs : Slice String)
    (hself : ∀ a d p a' err p', self a d p = some (.ret (a', err), p') →
      TraceSpec env p err p') :
    ∀ (rest : List Artifact) (i : Nat) (p : Proc) (out : List Artifact)
      (err : Option GoError) (p' : Proc),
      populateEach self dirs i rest p = some (.ret (out, err), p') →
      TraceSpec env p err p' := by
  intro rest
  induction rest with
  | nil =>
    intro i p out err p' h
    simp only [populateEach, Option.some.injEq, Prod.mk.injEq, Outcome.ret.injEq] at h
    obtain ⟨⟨_, h1⟩, h2⟩ := h
    subst h1 h2
    exact ⟨[], by simp, by intro c hc; simp at hc⟩
  | cons dep rest ih =>
    intro i p out err p' h
    simp only [populateEach] at h
    rcases hd : dirs.elems[i]? with _ | dir
    · simp [hd] at h
    · simp only [hd] at h
      rcases hs : self dep dir p with _ | ⟨o, p1⟩
      · simp [hs] at h
      · cases o with
        | panic => simp [hs] at h
        | ret r =>
          obtain ⟨dep1, e⟩ := r
          have h1 := hself dep dir p dep1 e p1 hs
          cases e with
          | some e1 =>
            simp only [hs, Option.some.injEq, Prod.mk.injEq, Outcome.ret.injEq] at h
            obtain ⟨⟨_, h2⟩, h3⟩ := h
            subst h2 h3
            exact h1
          | none =>
            simp only [hs] at h
            rcases hr : populateEach self dirs (i + 1) rest p1 with _ | ⟨o2, p2⟩
            · simp [hr] at h
            · cases o2 with
              | panic => simp [hr] at h
              | ret r2 =>
                obtain ⟨rest2, e2⟩ := r2
                simp only [hr, Option.some.injEq, Prod.mk.injEq, Outcome.ret.injEq] at h
                obtain ⟨⟨_, h2⟩, h3⟩ := h
                subst h2 h3
                exact TraceSpec_trans env p p1 p2 e2 h1 (ih (i + 1) p1 rest2 e2 p2 hr)

/-- The trace of a returning `populateDependencyTree`, and no mutation of
the artifact on an error. -/
theorem populate_trace (env : Env) :
    ∀ (fuel : Nat) (a : Artifact) (Dir : String) (p : Proc) (a' : Artifact)
      (err : Option GoError) (p' : Proc),
      populateDependencyTree env fuel a Dir p = some (.ret (a', err), p') →
      TraceSpec env p err p' ∧ (err ≠ none → a' = a) := by
  intro fuel
  induction fuel with
  | zero =>
    intro a Dir p a' err p' h
    simp [populateDependencyTree] at h
  | succ fuel ih =>
    intro a Dir p a' err p' h
    obtain ⟨t, htr, hres⟩ := fetch_trace env Dir p
    rcases hf : fetchDependencies env Dir p with ⟨o, p1⟩
    rw [hf] at htr hres
    simp only at htr hres
    cases o with
    | panic => simp [populateDependencyTree, hf] at h
    | ret r =>
      obtain ⟨arts, dirs, e⟩ := r
      cases e with
      | some e =>
        simp only [populateDependencyTree, hf, Option.some.injEq, Prod.mk.injEq,
          Outcome.ret.injEq] at h
        obtain ⟨⟨h1, h2⟩, h3⟩ := h
        subst h1 h2 h3
        exact ⟨⟨Dir, p, [], arts, dirs, by simp, by intro c hc; simp at hc, hf⟩, fun _ => rfl⟩
      | none =>
        have hfetch : TraceSpec env p none p1 :=
          ⟨t, htr, fun c hc => ⟨_, hres _ c hc, rfl⟩⟩
        cases arts with
        | none =>
          simp only [populateDependencyTree, hf, Option.some.injEq, Prod.mk.injEq,
            Outcome.ret.injEq] at h
          obtain ⟨⟨_, h2⟩, h3⟩ := h
          subst h2 h3
          exact ⟨hfetch, fun hne => absurd rfl hne⟩
        | some deps =>
          simp only [populateDependencyTree, hf] at h
          rcases hr : populateEach (populateDependencyTree env fuel) dirs 0 deps p1
            with _ | ⟨o2, p2⟩
          · simp [hr] at h
          · cases o2 with
            | panic => simp [hr] at h
            | ret r2 =>
              obtain ⟨kids, e2⟩ := r2
              have hloop := populateEach_trace env (populateDependencyTree env fuel) dirs
                (fun a d p a' err p' hs => (ih a d p a' err p' hs).1) deps 0 p1 kids e2 p2 hr
              cases e2 with
              | some e =>
                simp only [hr, Option.some.injEq, Prod.mk.injEq, Outcome.ret.injEq] at h
                obtain ⟨⟨h1, h2⟩, h3⟩ := h
                subst h1 h2 h3
                exact ⟨TraceSpec_trans env p p1 p2 _ hfetch hloop, fun _ => rfl⟩
              | none =>
                simp only [hr, Option.some.injEq, Prod.mk.injEq, Outcome.ret.injEq] at h
                obtain ⟨⟨_, h2⟩, h3⟩ := h
                subst h2 h3
                exact ⟨TraceSpec_trans env p p1 p2 _ hfetch hloop, fun hne => absurd rfl hne⟩

/-! ## No nil `Dependencies` after a success -/

theorem populateEach_allSet (self : Artifact → String → Proc → Option PopResult)
    (dirs : Slice String)
    (hself : ∀ a d p a' p', self a d p = some (.ret (a', none), p') → a'.allSet = true) :
    ∀ (rest : List Artifact) (i : Nat) (p : Proc) (out : List Artifact) (p' : Proc),
      populateEach self dirs i rest p = some (.ret (out, none), p') →
      allSetList out = true := by
  intro rest
  induction rest with
  | nil =>
    intro i p out p' h
    simp only [populateEach, Option.some.injEq, Prod.mk.injEq, Outcome.ret.injEq,
      and_true] at h
    obtain ⟨h1, _⟩ := h
    subst h1
    rfl
  | cons dep rest ih =>
    intro i p out p' h
    simp only [populateEach] at h
    rcases hd : dirs.elems[i]? with _ | dir
    · simp [hd] at h
    · simp only [hd] at h
      rcases hs : self dep dir p with _ | ⟨o, p1⟩
      · simp [hs] at h
      · cases o with
        | panic => simp [hs] at h
        | ret r =>
          obtain ⟨dep1, e⟩ := r
          cases e with
          | some e1 => simp [hs] at h
          | none =>
            simp only [hs] at h
            rcases hr : populateEach self dirs (i + 1) rest p1 with _ | ⟨o2, p2⟩
            · simp [hr] at h
            · cases o2 with
              | panic => simp [hr] at h
              | ret r2 =>
                obtain ⟨rest2, e2⟩ := r2
                simp only [hr, Option.some.injEq, Prod.mk.injEq, Outcome.ret.injEq] at h
                obtain ⟨⟨h1, h2⟩, h3⟩ := h
                subst h1 h2 h3
                simp [allSetList, hself dep dir p dep1 p1 hs, ih (i + 1) p1 rest2 p2 hr]

theorem populate_allSet (env : Env) :
    ∀ (fuel : Nat) (a : Artifact) (Dir : String) (p : Proc) (a' : Artifact) (p' : Proc),
      populateDependencyTree env fuel a Dir p = some (.ret (a', none), p') →
      a'.allSet = true := by
  intro fuel
  induction fuel with
  | zero =>
    intro a Dir p a' p' h
    simp [populateDependencyTree] at h
  | succ fuel ih =>
    intro a Dir p a' p' h
    rcases hf : fetchDependencies env Dir p with ⟨o, p1⟩
    cases o with
    | panic => simp [populateDependencyTree, hf] at h
    | ret r =>
      obtain ⟨arts, dirs, e⟩ := r
      cases e with
      | some e => simp [populateDependencyTree, hf] at h
      | none =>
        cases arts with
        | none =>
          simp only [populateDependencyTree, hf, Option.some.injEq, Prod.mk.injEq,
            Outcome.ret.injEq, and_true] at h
          obtain ⟨h2, _⟩ := h
          subst h2
          rw [setDependencies_eq]
          rfl
        | some deps =>
          simp only [populateDependencyTree, hf] at h
          rcases hr : populateEach (populateDependencyTree env fuel) dirs 0 deps p1
            with _ | ⟨o2, p2⟩
          · simp [hr] at h
          · cases o2 with
            | panic => simp [hr] at h
            | ret r2 =>
              obtain ⟨kids, e2⟩ := r2
              cases e2 with
              | some e => simp [hr] at h
              | none =>
                simp only [hr, Option.some.injEq, Prod.mk.injEq, Outcome.ret.injEq,
                  and_true] at h
                obtain ⟨h2, _⟩ := h
                subst h2
                rw [setDependencies_eq]
                simp only [Artifact.allSet]
                exact populateEach_allSet (populateDependencyTree env fuel) dirs
                  (fun a d p a' p' hs => ih a d p a' p' hs) deps 0 p1 kids p2 hr

/-! ## Fuel and termination -/

theorem populateEach_mono (self self2 : Artifact → String → Proc → Option PopResult)
    (dirs : Slice String)
    (hself : ∀ a d p r, self a d p = some r → self2 a d p = some r) :
    ∀ (rest : List Artifact) (i : Nat) (p : Proc)
      (r : Outcome (List Artifact × Option GoError) × Proc),
      populateEach self dirs i rest p = some r →
      populateEach self2 dirs i rest p = some r := by
  intro rest
  induction rest with
  | nil =>
    intro i p r h
    simpa [populateEach] using h
  | cons dep rest ih =>
    intro i p r h
    simp only [populateEach] at h ⊢
    rcases hd : dirs.elems[i]? with _ | dir
    · simpa [hd] using h
    · simp only [hd] at h ⊢
      rcases hs : self dep dir p with _ | ⟨o, p1⟩
      · simp [hs] at h
      · rw [hself dep dir p _ hs]
        rw [hs] at h
        cases o with
        | panic => exact h
        | ret r1 =>
          obtain ⟨dep1, e⟩ := r1
          cases e with
          | some e1 => exact h
          | none =>
            simp only at h ⊢
            rcases hr : populateEach self dirs (i + 1) rest p1 with _ | r2
            · simp [hr] at h
            · rw [ih (i + 1) p1 r2 hr]
              rw [hr] at h
              exact h

/-- A result obtained with some fuel is obtained with one more unit. -/
theorem populate_succ (env : Env) :
    ∀ (fuel : Nat) (a : Artifact) (Dir : String) (p : Proc) (r : PopResult),
      populateDependencyTree env fuel a Dir p = some r →
      populateDependencyTree env (fuel + 1) a Dir p = some r := by
  intro fuel
  induction fuel with
  | zero =>
    intro a Dir p r h
    simp [populateDependencyTree] at h
  | succ fuel ih =>
    intro a Dir p r h
    rw [populateDependencyTree] at h ⊢
    rcases hf : fetchDependencies env Dir p with ⟨o, p1⟩
    rw [hf] at h
    cases o with
    | panic => exact h
    | ret fr =>
      obtain ⟨arts, dirs, e⟩ := fr
      cases e with
      | some e =>
        simp only at h ⊢
        exact h
      | none =>
        cases arts with
        | none =>
          simp only at h ⊢
          exact h
        | some deps =>
          simp only at h ⊢
          rcases hr : populateEach (populateDependencyTree env fuel) dirs 0 deps p1 with _ | r2
          · simp [hr] at h
          · rw [populateEach_mono _ (populateDependencyTree env (fuel + 1)) dirs
              (fun a d p r hs => ih a d p r hs) deps 0 p1 r2 hr]
            rw [hr] at h
            exact h

/-- More fuel never changes a result. -/
theorem populate_mono (env : Env) (n m : Nat) (hnm : n ≤ m) (a : Artifact) (Dir : String)
    (p : Proc) (r : PopResult) (h : populateDependencyTree env n a Dir p = some r) :
    populateDependencyTree env m a Dir p = some r := by
  induction hnm with
  | refl => exact h
  | step _ ih => exact populate_succ env _ a Dir p r ih

/-- The loop returns when every recursive call does. -/
theorem populateEach_returns (self : Artifact → String → Proc → Option PopResult)
    (dirs : Slice String)
    (hself : ∀ a d p, d ∈ dirs.elems → ∃ r, self a d p = some r) :
    ∀ (rest : List Artifact) (i : Nat) (p : Proc),
      ∃ r, populateEach self dirs i rest p = some r := by
  intro rest
  induction rest with
  | nil =>
    intro i p
    exact ⟨_, rfl⟩
  | cons dep rest ih =>
    intro i p
    simp only [populateEach]
    rcases hd : dirs.elems[i]? with _ | dir
    · exact ⟨_, rfl⟩
    · simp only
      obtain ⟨r, hs⟩ := hself dep dir p (List.getElem?_mem hd)
      rw [hs]
      obtain ⟨o, p1⟩ := r
      cases o with
      | panic => exact ⟨_, rfl⟩
      | ret r1 =>
        obtain ⟨dep1, e⟩ := r1
        cases e with
        | some e1 => exact ⟨_, rfl⟩
        | none =>
          simp only
          obtain ⟨r2, hr⟩ := ih (i + 1) p1
          rw [hr]
          obtain ⟨o2, p2⟩ := r2
          cases o2 with
          | panic => exact ⟨_, rfl⟩
          | ret r3 => exact ⟨_, rfl⟩

/-- One amount of fuel that suffices for every directory of a list. -/
theorem uniform_fuel (env : Env) (dl : List String)
    (h : ∀ d ∈ dl, ∃ n, ∀ a p, ∃ r, populateDependencyTree env n a d p = some r) :
    ∃ n, ∀ d ∈ dl, ∀ a p, ∃ r, populateDependencyTree env n a d p = some r := by
  induction dl with
  | nil => exact ⟨0, by intro d hd; simp at hd⟩
  | cons d dl ih =>
    obtain ⟨n1, h1⟩ := h d (List.mem_cons_self d dl)
    obtain ⟨n2, h2⟩ := ih (fun d2 hd2 => h d2 (List.mem_cons_of_mem d hd2))
    refine ⟨max n1 n2, ?_⟩
    intro d2 hd2 a p
    rcases List.mem_cons.1 hd2 with hd3 | hd3
    · subst hd3
      obtain ⟨r, hr⟩ := h1 a p
      exact ⟨r, populate_mono env n1 _ (le_max_left n1 n2) a d2 p r hr⟩
    · obtain ⟨r, hr⟩ := h2 d2 hd3 a p
      exact ⟨r, populate_mono env n2 _ (le_max_right n1 n2) a d2 p r hr⟩

/-- Below an accessible directory the traversal returns, with an amount of
fuel that does not depend on the artifact or on the state. -/
theorem populate_returns_of_acc (env : Env) (hex : DirsExist env) (Dir : String)
    (hacc : Acc (fun d2 d => Lists env d d2) Dir) (hdir : env.dirExists Dir = true) :
    ∃ n, ∀ a p, ∃ r, populateDependencyTree env n a Dir p = some r := by
  induction hacc with
  | intro d _ ih =>
    have hfd : ∀ p, ∃ p1, fetchDependencies env d p = (resolveAt env d, p1) := by
      intro p
      have hf := fetch_fst env d p
      rw [chdir_cwd_of_exists env d p hdir] at hf
      exact ⟨(fetchDependencies env d p).2, by rw [← hf]⟩
    cases hres : resolveAt env d with
    | panic =>
      refine ⟨1, fun a p => ?_⟩
      obtain ⟨p1, h1⟩ := hfd p
      rw [hres] at h1
      simp [populateDependencyTree, h1]
    | ret fr =>
      obtain ⟨arts, dirs, e⟩ := fr
      have hstep : ∀ n, (∀ d2 ∈ dirs.elems, ∀ a p, ∃ r,
          populateDependencyTree env n a d2 p = some r) →
          ∀ a p, ∃ r, populateDependencyTree env (n + 1) a d p = some r := by
        intro n hn a p
        obtain ⟨p1, h1⟩ := hfd p
        rw [hres] at h1
        cases e with
        | some e => simp [populateDependencyTree, h1]
        | none =>
          cases arts with
          | none => simp [populateDependencyTree, h1]
          | some deps =>
            obtain ⟨r2, hr⟩ := populateEach_returns (populateDependencyTree env n) dirs
              (fun a d2 p hd2 => hn d2 hd2 a p) deps 0 p1
            simp only [populateDependencyTree, h1, hr]
            obtain ⟨o2, p2⟩ := r2
            cases o2 with
            | panic => exact ⟨_, rfl⟩
            | ret r3 =>
              obtain ⟨kids, e2⟩ := r3
              cases e2 with
              | some e => exact ⟨_, rfl⟩
              | none => exact ⟨_, rfl⟩
      rcases resolveAt_shape env d _ hres with ⟨_, h2⟩ | ⟨_, h2, _⟩ | ⟨x, xs, h1, h2, h3, _, _⟩
      · simp only at h2
        subst h2
        exact ⟨1, hstep 0 (fun d2 hd2 => by simp [Slice.elems] at hd2)⟩
      · simp only at h2
        subst h2
        exact ⟨1, hstep 0 (fun d2 hd2 => by simp [Slice.elems] at hd2)⟩
      · simp only at h1 h2 h3
        subst h1 h2 h3
        obtain ⟨n, hn⟩ := uniform_fuel env (List.map (fun e => e.Dir) (x :: xs))
          (fun d2 hd2 => ih d2 ⟨_, _, hres, hd2⟩ (hex d _ _ _ hres d2 hd2))
        exact ⟨n + 1, hstep n hn⟩

/-! ## The unfolding -/

/-- What `unfoldKids` returns: one child per artifact and directory, with
the artifact's name and version and the unfolding of the directory. -/
theorem unfoldKids_some (f : String → Option (List Artifact)) :
    ∀ (al : List Artifact) (dl : List String) (out : List Artifact),
      unfoldKids f al dl = some out →
      al.length = dl.length ∧ out.length = al.length ∧
      ∀ (i : Nat) (a : Artifact) (d : String), al[i]? = some a → dl[i]? = some d →
        ∃ sub, f d = some sub ∧ out[i]? = some (Artifact.mk a.Name a.Version (some sub)) := by
  intro al
  induction al with
  | nil =>
    intro dl out h
    cases dl with
    | nil =>
      simp only [unfoldKids, Option.some.injEq] at h
      subst h
      exact ⟨rfl, rfl, by intro i a d ha; simp at ha⟩
    | cons d dl => simp [unfoldKids] at h
  | cons a al ih =>
    intro dl out h
    cases dl with
    | nil => simp [unfoldKids] at h
    | cons d dl =>
      simp only [unfoldKids] at h
      cases hf : f d with
      | none => simp [hf] at h
      | some sub =>
        cases hk : unfoldKids f al dl with
        | none => simp [hf, hk] at h
        | some rest =>
          simp only [hf, hk, Option.some.injEq] at h
          subst h
          obtain ⟨h1, h2, h3⟩ := ih dl rest hk
          refine ⟨by simp [h1], by simp [h2], ?_⟩
          intro i a2 d2 ha hd
          cases i with
          | zero =>
            simp only [List.getElem?_cons_zero, Option.some.injEq] at ha hd
            subst ha hd
            exact ⟨sub, hf, by simp⟩
          | succ i =>
            simp only [List.getElem?_cons_succ] at ha hd
            obtain ⟨sub2, hs1, hs2⟩ := h3 i a2 d2 ha hd
            exact ⟨sub2, hs1, by simpa using hs2⟩

theorem unfoldKids_mem (f : String → Option (List Artifact)) (al : List Artifact)
    (dl : List String) (out : List Artifact) (h : unfoldKids f al dl = some out)
    (d : String) (hd : d ∈ dl) : ∃ sub, f d = some sub := by
  obtain ⟨hlen, _, hall⟩ := unfoldKids_some f al dl out h
  obtain ⟨i, hi, hget⟩ := List.getElem_of_mem hd
  have hia : i < al.length := by omega
  obtain ⟨sub, hs, _⟩ := hall i al[i] d (List.getElem?_eq_getElem hia)
    (by rw [List.getElem?_eq_getElem hi, hget])
  exact ⟨sub, hs⟩

theorem unfoldKids_congr (f g : String → Option (List Artifact))
    (hfg : ∀ d sub, f d = some sub → g d = some sub) :
    ∀ (al : List Artifact) (dl : List String) (out : List Artifact),
      unfoldKids f al dl = some out → unfoldKids g al dl = some out := by
  intro al
  induction al with
  | nil =>
    intro dl out h
    cases dl with
    | nil => simpa [unfoldKids] using h
    | cons d dl => simp [unfoldKids] at h
  | cons a al ih =>
    intro dl out h
    cases dl with
    | nil => simp [unfoldKids] at h
    | cons d dl =>
      simp only [unfoldKids] at h ⊢
      cases hf : f d with
      | none => simp [hf] at h
      | some sub =>
        cases hk : unfoldKids f al dl with
        | none => simp [hf, hk] at h
        | some rest =>
          simp only [hf, hk] at h
          simp only [hfg d sub hf, ih dl rest hk]
          exact h

/-- A deeper bound does not change an unfolding. -/
theorem unfoldTree_succ (env : Env) :
    ∀ (n : Nat) (d : String) (deps : List Artifact),
      unfoldTree env n d = some deps → unfoldTree env (n + 1) d = some deps := by
  intro n
  induction n with
  | zero =>
    intro d deps h
    simp [unfoldTree] at h
  | succ n ih =>
    intro d deps h
    rw [unfoldTree] at h ⊢
    split at h
    · simpa using h
    · rename_i arts dirs heq
      exact unfoldKids_congr _ _ ih arts dirs deps h
    · simp at h

theorem unfoldTree_mono (env : Env) (n m : Nat) (hnm : n ≤ m) (d : String)
    (deps : List Artifact) (h : unfoldTree env n d = some deps) :
    unfoldTree env m d = some deps := by
  induction hnm with
  | refl => exact h
  | step _ ih => exact unfoldTree_succ env _ d deps ih

/-- The unfolding of a directory does not depend on the bound. -/
theorem unfoldTree_unique (env : Env) (n m : Nat) (d : String) (x y : List Artifact)
    (hx : unfoldTree env n d = some x) (hy : unfoldTree env m d = some y) : x = y := by
  have h1 := unfoldTree_mono env n (max n m) (le_max_left n m) d x hx
  have h2 := unfoldTree_mono env m (max n m) (le_max_right n m) d y hy
  rw [h1] at h2
  exact Option.some.inj h2

/-- A directory with an unfolding is accessible for the dependency
relation: nothing below it lies on a cycle. -/
theorem acc_of_unfoldTree (env : Env) :
    ∀ (n : Nat) (d : String) (deps : List Artifact),
      unfoldTree env n d = some deps → Acc (fun d2 d => Lists env d d2) d := by
  intro n
  induction n with
  | zero =>
    intro d deps h
    simp [unfoldTree] at h
  | succ n ih =>
    intro d deps h
    rw [unfoldTree] at h
    refine Acc.intro d ?_
    intro d2 hl
    obtain ⟨al, dl, hres, hmem⟩ := hl
    rw [hres] at h
    simp only at h
    obtain ⟨sub, hs⟩ := unfoldKids_mem _ al dl deps h d2 hmem
    exact ih d2 sub hs

theorem flatMap_congr_mem (f g : String → List String) :
    ∀ (l : List String), (∀ x ∈ l, f x = g x) → l.flatMap f = l.flatMap g := by
  intro l
  induction l with
  | nil => intro _; rfl
  | cons x l ih =>
    intro h
    rw [List.flatMap_cons, List.flatMap_cons, h x (List.mem_cons_self x l),
      ih (fun y hy => h y (List.mem_cons_of_mem x hy))]

/-- Where the unfolding exists within the bound, the pre-order is complete:
a deeper bound lists the same directories. -/
theorem dirPreorder_succ (env : Env) :
    ∀ (n : Nat) (d : String) (deps : List Artifact),
      unfoldTree env n d = some deps → dirPreorder env (n + 1) d = dirPreorder env n d := by
  intro n
  induction n with
  | zero =>
    intro d deps h
    simp [unfoldTree] at h
  | succ n ih =>
    intro d deps h
    rw [unfoldTree] at h
    rw [dirPreorder, dirPreorder]
    split at h
    · rename_i ds heq
      simp only [heq]
    · rename_i al dl heq
      simp only [heq]
      congr 1
      apply flatMap_congr_mem
      intro d2 hd2
      obtain ⟨sub, hs⟩ := unfoldKids_mem _ al dl deps h d2 hd2
      exact ih d2 sub hs
    · simp at h

/-- The loop succeeds with the children of the unfolding when each
recursive call succeeds with the unfolding of its directory. -/
theorem populateEach_complete (self : Artifact → String → Proc → Option PopResult)
    (f : String → Option (List Artifact)) (dirsAll : List String)
    (hself : ∀ d ∈ dirsAll, ∀ sub, f d = some sub → ∀ a p, ∃ p',
      self a d p = some (.ret (Artifact.mk a.Name a.Version (some sub), none), p')) :
    ∀ (rest : List Artifact) (i : Nat) (p : Proc) (out : List Artifact),
      unfoldKids f rest (dirsAll.drop i) = some out →
      ∃ p', populateEach self (some dirsAll) i rest p = some (.ret (out, none), p') := by
  intro rest
  induction rest with
  | nil =>
    intro i p out h
    cases hd : dirsAll.drop i with
    | nil =>
      simp only [hd, unfoldKids, Option.some.injEq] at h
      subst h
      exact ⟨p, rfl⟩
    | cons d dl => simp [hd, unfoldKids] at h
  | cons dep rest ih =>
    intro i p out h
    cases hd : dirsAll.drop i with
    | nil => simp [hd, unfoldKids] at h
    | cons d dl =>
      have hi : i < dirsAll.length := by
        by_contra hcon
        rw [List.drop_eq_nil_of_le (by omega)] at hd
        cases hd
      have hd2 := List.drop_eq_getElem_cons hi
      rw [hd] at hd2
      simp only [List.cons.injEq] at hd2
      obtain ⟨hd3, hd4⟩ := hd2
      subst hd3 hd4
      simp only [hd, unfoldKids] at h
      cases hf : f dirsAll[i] with
      | none => simp [hf] at h
      | some sub =>
        cases hk : unfoldKids f rest (dirsAll.drop (i + 1)) with
        | none => simp [hf, hk] at h
        | some rest2 =>
          simp only [hf, hk, Option.some.injEq] at h
          subst h
          obtain ⟨p1, hs⟩ := hself dirsAll[i] (List.getElem_mem hi) sub hf dep p
          obtain ⟨p2, hr⟩ := ih (i + 1) p1 rest2 hk
          refine ⟨p2, ?_⟩
          simp only [populateEach, Slice.elems, List.getElem?_eq_getElem hi, hs, hr]

/-- Whenever the unfolding of the resolver at `Dir` exists within the
bound, `populateDependencyTree` returns it without an error. -/
theorem populate_complete (env : Env) (hex : DirsExist env) :
    ∀ (fuel : Nat) (Dir : String) (deps : List Artifact),
      env.dirExists Dir = true → unfoldTree env fuel Dir = some deps →
      ∀ (a : Artifact) (p : Proc), ∃ p',
        populateDependencyTree env fuel a Dir p =
          some (.ret (Artifact.mk a.Name a.Version (some deps), none), p') := by
  intro fuel
  induction fuel with
  | zero =>
    intro Dir deps _ h
    simp [unfoldTree] at h
  | succ fuel ih =>
    intro Dir deps hdir h a p
    have hf := fetch_fst env Dir p
    rw [chdir_cwd_of_exists env Dir p hdir] at hf
    rcases hfd : fetchDependencies env Dir p with ⟨o, p1⟩
    rw [hfd] at hf
    simp only at hf
    subst hf
    rw [unfoldTree] at h
    split at h
    · rename_i ds heq
      simp only [Option.some.injEq] at h
      subst h
      exact ⟨p1, by simp [populateDependencyTree, hfd, heq, setDependencies_eq]⟩
    · rename_i al dl heq
      obtain ⟨p2, hr⟩ := populateEach_complete (populateDependencyTree env fuel)
        (unfoldTree env fuel) dl
        (fun d hd sub hs a p => ih d sub (hex Dir _ _ _ heq d hd) hs a p) al 0 p1 deps
        (by simpa using h)
      exact ⟨p2, by simp [populateDependencyTree, hfd, heq, hr, setDependencies_eq]⟩
    · simp at h

/-! ## Paths into the tree -/

/-- The node at a path of the unfolded tree carries the name and version
that the resolver reported along the path and the unfolding of the
directory it reported. -/
theorem nodeAt_unfold (env : Env) :
    ∀ (path : List Nat) (n : Nat) (a : Artifact) (d : String) (deps : List Artifact)
      (c : Artifact) (dC : String),
      unfoldTree env n d = some deps → entryAt env a d path = some (c, dC) →
      ∃ m sub, unfoldTree env m dC = some sub ∧
        nodeAt (Artifact.mk a.Name a.Version (some deps)) path =
          some (Artifact.mk c.Name c.Version (some sub)) := by
  intro path
  induction path with
  | nil =>
    intro n a d deps c dC h he
    simp only [entryAt, Option.some.injEq, Prod.mk.injEq] at he
    obtain ⟨h1, h2⟩ := he
    subst h1 h2
    exact ⟨n, deps, h, rfl⟩
  | cons i path ih =>
    intro n a d deps c dC h he
    cases n with
    | zero => simp [unfoldTree] at h
    | succ n =>
      rw [unfoldTree] at h
      rw [entryAt] at he
      split at he
      · rename_i al dl heq
        rw [heq] at h
        simp only at h
        cases ha : al[i]? with
        | none => simp [ha] at he
        | some a2 =>
          cases hd : dl[i]? with
          | none => simp [ha, hd] at he
          | some d2 =>
            simp only [ha, hd] at he
            obtain ⟨_, _, hall⟩ := unfoldKids_some _ al dl deps h
            obtain ⟨sub2, hs1, hs2⟩ := hall i a2 d2 ha hd
            obtain ⟨m, sub, hm1, hm2⟩ := ih n a2 d2 sub2 c dC hs1 he
            exact ⟨m, sub, hm1, by simpa [nodeAt, Artifact.Dependencies, hs2] using hm2⟩
      · simp at he

/-- The directory at a path of the unfolding occurs in its pre-order. -/
theorem mem_dirPreorder (env : Env) :
    ∀ (path : List Nat) (n : Nat) (a : Artifact) (d : String) (deps : List Artifact)
      (c : Artifact) (dC : String),
      unfoldTree env n d = some deps → entryAt env a d path = some (c, dC) →
      dC ∈ dirPreorder env n d := by
  intro path
  induction path with
  | nil =>
    intro n a d deps c dC h he
    simp only [entryAt, Option.some.injEq, Prod.mk.injEq] at he
    obtain ⟨_, h2⟩ := he
    subst h2
    cases n with
    | zero => simp [unfoldTree] at h
    | succ n => simp [dirPreorder]
  | cons i path ih =>
    intro n a d deps c dC h he
    cases n with
    | zero => simp [unfoldTree] at h
    | succ n =>
      rw [unfoldTree] at h
      rw [entryAt] at he
      split at he
      · rename_i al dl heq
        rw [heq] at h
        simp only at h
        cases ha : al[i]? with
        | none => simp [ha] at he
        | some a2 =>
          cases hd : dl[i]? with
          | none => simp [ha, hd] at he
          | some d2 =>
            simp only [ha, hd] at he
            obtain ⟨_, _, hall⟩ := unfoldKids_some _ al dl deps h
            obtain ⟨sub2, hs1, _⟩ := hall i a2 d2 ha hd
            have hmem := ih n a2 d2 sub2 c dC hs1 he
            simp only [dirPreorder, heq, List.mem_cons, List.mem_flatMap]
            exact Or.inr ⟨d2, List.getElem?_mem hd, hmem⟩
      · simp at he

theorem allSetList_getElem : ∀ (l : List Artifact) (i : Nat) (c : Artifact),
    allSetList l = true → l[i]? = some c → c.allSet = true := by
  intro l
  induction l with
  | nil =>
    intro i c _ h
    simp at h
  | cons a l ih =>
    intro i c hl h
    simp only [allSetList, Bool.and_eq_true] at hl
    cases i with
    | zero =>
      simp only [List.getElem?_cons_zero, Option.some.injEq] at h
      subst h
      exact hl.1
    | succ i =>
      simp only [List.getElem?_cons_succ] at h
      exact ih i c hl.2 h

/-- In a tree without nil `Dependencies`, no reachable node has one. -/
theorem nodeAt_allSet : ∀ (path : List Nat) (a n : Artifact),
    a.allSet = true → nodeAt a path = some n → n.allSet = true := by
  intro path
  induction path with
  | nil =>
    intro a n ha h
    simp only [nodeAt, Option.some.injEq] at h
    subst h
    exact ha
  | cons i path ih =>
    intro a n ha h
    obtain ⟨nm, v, deps⟩ := a
    cases deps with
    | none => simp [Artifact.allSet] at ha
    | some l =>
      simp only [Artifact.allSet] at ha
      simp only [nodeAt, Artifact.Dependencies] at h
      cases hc : l[i]? with
      | none => simp [hc] at h
      | some c =>
        simp only [hc] at h
        exact ih c n (allSetList_getElem l i c ha hc) h

theorem allSet_dependencies (n : Artifact) (h : n.allSet = true) : n.Dependencies ≠ none := by
  obtain ⟨nm, v, deps⟩ := n
  cases deps with
  | none => simp [Artifact.allSet] at h
  | some l => simp [Artifact.Dependencies]

/-! ## The forest built by `main` -/

/-- A successful run of the loop of `main` appends, for each top-level
artifact, its name and version with the unfolding of its directory, and
calls the resolver once per directory occurrence, in pre-order. -/
theorem populateForest_success (env : Env) (hex : DirsExist env) (fuel : Nat)
    (dirs : Slice String) (hdirs : ∀ d ∈ dirs.elems, env.dirExists d = true) :
    ∀ (rest : List Artifact) (i : Nat) (acc : Slice Artifact) (p : Proc)
      (forest : Slice Artifact) (p' : Proc),
      i + rest.length = dirs.elems.length →
      populateForest env fuel dirs i rest acc p = some (.ret forest, p') →
      ∃ out, unfoldKids (unfoldTree env fuel) rest (dirs.elems.drop i) = some out ∧
        forest.elems = acc.elems ++ out ∧
        visited p'.trace = visited p.trace ++
          (dirs.elems.drop i).flatMap (dirPreorder env fuel) := by
  intro rest
  induction rest with
  | nil =>
    intro i acc p forest p' hlen h
    simp only [populateForest, Option.some.injEq, Prod.mk.injEq, Outcome.ret.injEq] at h
    have hd : dirs.elems.drop i = [] := by
      simp only [List.length_nil, Nat.add_zero] at hlen
      simp [hlen]
    obtain ⟨h1, h2⟩ := h
    subst h1 h2
    exact ⟨[], by simp [hd, unfoldKids], by simp, by simp [hd]⟩
  | cons a rest ih =>
    intro i acc p forest p' hlen h
    have hi : i < dirs.elems.length := by
      simp only [List.length_cons] at hlen
      omega
    have hd : dirs.elems.drop i = dirs.elems[i] :: dirs.elems.drop (i + 1) :=
      List.drop_eq_getElem_cons hi
    simp only [populateForest, List.getElem?_eq_getElem hi] at h
    rcases hs : populateDependencyTree env fuel a dirs.elems[i] p with _ | ⟨o, p1⟩
    · simp [hs] at h
    · cases o with
      | panic => simp [hs] at h
      | ret r =>
        obtain ⟨a1, e⟩ := r
        cases e with
        | some err => simp [hs] at h
        | none =>
          simp only [hs] at h
          obtain ⟨sub, hsub, ha1, hv⟩ := populate_success env hex fuel a dirs.elems[i] p a1 p1
            (hdirs _ (List.getElem_mem hi)) hs
          have hlen2 : i + 1 + rest.length = dirs.elems.length := by
            simp only [List.length_cons] at hlen
            omega
          obtain ⟨out, hk, hfo, hv2⟩ := ih (i + 1) (acc.push a1) p1 forest p' hlen2 h
          refine ⟨a1 :: out, ?_, ?_, ?_⟩
          · rw [hd]
            simp only [unfoldKids, hsub, hk, ha1]
          · rw [hfo]
            cases acc <;> simp [Slice.push, Slice.elems]
          · rw [hv2, hv, hd, List.flatMap_cons, List.append_assoc]

/-- A value that two different entries of a list both produce occurs at
least twice in the concatenation. -/
theorem count_flatMap_two (g : String → List String) (x : String) :
    ∀ (l : List String) (i j : Nat) (di dj : String), i < j →
      l[i]? = some di → l[j]? = some dj → x ∈ g di → x ∈ g dj →
      2 ≤ (l.flatMap g).count x := by
  intro l
  induction l with
  | nil =>
    intro i j di dj _ hi
    simp at hi
  | cons h t ih =>
    intro i j di dj hij hi hj hxi hxj
    rw [List.flatMap_cons, List.count_append]
    cases j with
    | zero => omega
    | succ j =>
      simp only [List.getElem?_cons_succ] at hj
      cases i with
      | zero =>
        simp only [List.getElem?_cons_zero, Option.some.injEq] at hi
        subst hi
        have h1 : 0 < (g h).count x := List.count_pos_iff.2 hxi
        have h2 : 0 < (t.flatMap g).count x :=
          List.count_pos_iff.2 (List.mem_flatMap.2 ⟨dj, List.getElem?_mem hj, hxj⟩)
        omega
      | succ i =>
        simp only [List.getElem?_cons_succ] at hi
        have := ih i j di dj (by omega) hi hj hxi hxj
        omega

/-! ## Reaching a failing resolver call -/

/-- The loop returns without an error when the traversal of each of its
directories completes. -/
theorem populateEach_chain (self : Artifact → String → Proc → Option PopResult)
    (R : String → Proc → Proc → Prop) (dirs : Slice String)
    (hself : ∀ d q q' a, R d q q' → ∃ a', self a d q = some (.ret (a', none), q')) :
    ∀ (rest : List Artifact) (i : Nat) (p p' : Proc),
      rest.length ≤ (dirs.elems.drop i).length →
      chainAll R ((dirs.elems.drop i).take rest.length) p p' →
      ∃ out, populateEach self dirs i rest p = some (.ret (out, none), p') := by
  intro rest
  induction rest with
  | nil =>
    intro i p p' _ h
    simp only [List.length_nil, List.take_zero, chainAll] at h
    subst h
    exact ⟨[], rfl⟩
  | cons dep rest ih =>
    intro i p p' hlen h
    have hi : i < dirs.elems.length := by
      simp only [List.length_cons, List.length_drop] at hlen
      omega
    have hd : dirs.elems.drop i = dirs.elems[i] :: dirs.elems.drop (i + 1) :=
      List.drop_eq_getElem_cons hi
    rw [hd] at h hlen
    simp only [List.length_cons, List.take_succ_cons, chainAll] at h hlen
    obtain ⟨q1, h1, h2⟩ := h
    obtain ⟨dep1, hs⟩ := hself dirs.elems[i] p q1 dep h1
    obtain ⟨out, hr⟩ := ih (i + 1) q1 p' (by omega) h2
    exact ⟨dep1 :: out, by
      simp only [populateEach, List.getElem?_eq_getElem hi, hs, hr]⟩

/-- The loop returns the error of the k-th recursive call when the
traversals before it complete. -/
theorem populateEach_fails (self : Artifact → String → Proc → Option PopResult)
    (R : String → Proc → Proc → Prop) (dirs : Slice String)
    (hself : ∀ d q q' a, R d q q' → ∃ a', self a d q = some (.ret (a', none), q'))
    (d : String) (q p' : Proc) (e : GoError)
    (hfail : ∀ a, ∃ a', self a d q = some (.ret (a', some e), p')) :
    ∀ (k : Nat) (rest : List Artifact) (i : Nat) (p : Proc),
      k < rest.length → dirs.elems[i + k]? = some d →
      chainAll R ((dirs.elems.drop i).take k) p q →
      ∃ out, populateEach self dirs i rest p = some (.ret (out, some e), p') := by
  intro k
  induction k with
  | zero =>
    intro rest i p hk hd h
    simp only [List.take_zero, chainAll] at h
    subst h
    cases rest with
    | nil => simp at hk
    | cons dep rest =>
      obtain ⟨dep1, hs⟩ := hfail dep
      simp only [Nat.add_zero] at hd
      exact ⟨dep1 :: rest, by simp only [populateEach, hd, hs]⟩
  | succ k ih =>
    intro rest i p hk hd h
    cases rest with
    | nil => simp at hk
    | cons dep rest =>
      have hik : i + (k + 1) < dirs.elems.length := by
        by_contra hcon
        rw [List.getElem?_eq_none (by omega)] at hd
        cases hd
      have hi : i < dirs.elems.length := by omega
      have hdrop : dirs.elems.drop i = dirs.elems[i] :: dirs.elems.drop (i + 1) :=
        List.drop_eq_getElem_cons hi
      rw [hdrop] at h
      simp only [List.take_succ_cons, chainAll] at h
      obtain ⟨q1, h1, h2⟩ := h
      obtain ⟨dep1, hs⟩ := hself dirs.elems[i] p q1 dep h1
      have hd2 : dirs.elems[i + 1 + k]? = some d := by
        rw [← hd]
        congr 1
        omega
      obtain ⟨out, hr⟩ := ih rest (i + 1) q1
        (by simp only [List.length_cons] at hk; omega) hd2 h2
      exact ⟨dep1 :: out, by
        simp only [populateEach, List.getElem?_eq_getElem hi, hs, hr]⟩

/-- A traversal that completes is a call that returns without an error, in
the state in which the traversal ends. -/
theorem populate_of_completes (env : Env) :
    ∀ (n : Nat) (Dir : String) (p p' : Proc) (a : Artifact),
      Completes env n Dir p p' →
      ∃ a', populateDependencyTree env n a Dir p = some (.ret (a', none), p') := by
  intro n
  induction n with
  | zero =>
    intro Dir p p' a h
    simp [Completes] at h
  | succ n ih =>
    intro Dir p p' a h
    rw [Completes] at h
    rcases hf : fetchDependencies env Dir p with ⟨o, p1⟩
    rw [hf] at h
    cases o with
    | panic => simp at h
    | ret fr =>
      obtain ⟨arts, dirs, e⟩ := fr
      cases e with
      | some e => simp at h
      | none =>
        cases arts with
        | none =>
          simp only at h
          subst h
          exact ⟨a.setDependencies (some []), by simp only [populateDependencyTree, hf]⟩
        | some al =>
          simp only at h
          obtain ⟨hlen, hch⟩ := h
          obtain ⟨out, hr⟩ := populateEach_chain (populateDependencyTree env n)
            (Completes env n) dirs (fun d q q' a hc => ih d q q' a hc) al 0 p1 p'
            (by simpa using hlen) (by simpa using hch)
          exact ⟨a.setDependencies (some out), by
            simp only [populateDependencyTree, hf, hr]⟩

/-- A traversal that reaches a failing resolver call is a call that returns
the error of that resolver call, in the state that the resolver call left,
with the artifact unchanged. -/
theorem populate_of_failsAt (env : Env) :
    ∀ (n : Nat) (Dir : String) (p p' : Proc) (e : GoError) (a : Artifact),
      FailsAt env n Dir p e p' →
      populateDependencyTree env n a Dir p = some (.ret (a, some e), p') := by
  intro n
  induction n with
  | zero =>
    intro Dir p p' e a h
    simp [FailsAt] at h
  | succ n ih =>
    intro Dir p p' e a h
    rw [FailsAt] at h
    rcases hf : fetchDependencies env Dir p with ⟨o, p1⟩
    rw [hf] at h
    cases o with
    | panic => simp at h
    | ret fr =>
      obtain ⟨arts, dirs, err⟩ := fr
      cases err with
      | some e1 =>
        simp only at h
        obtain ⟨h1, h2⟩ := h
        subst h1 h2
        simp only [populateDependencyTree, hf]
      | none =>
        cases arts with
        | none => simp at h
        | some al =>
          simp only at h
          obtain ⟨k, d, q, hk, hd, hch, hfa⟩ := h
          obtain ⟨out, hr⟩ := populateEach_fails (populateDependencyTree env n)
            (Completes env n) dirs
            (fun d q q' a hc => populate_of_completes env n d q q' a hc)
            d q p' e (fun a => ⟨a, ih d q p' e a hfa⟩) k al 0 p1 hk
            (by simpa using hd) (by simpa using hch)
          simp only [populateDependencyTree, hf, hr]


theorem populateEach_chain_conv (self : Artifact → String → Proc → Option PopResult)
    (R : String → Proc → Proc → Prop) (dirs : Slice String)
    (hself : ∀ a d q a' q', self a d q = some (.ret (a', none), q') → R d q q') :
    ∀ (rest : List Artifact) (i : Nat) (p : Proc) (out : List Artifact) (p' : Proc),
      populateEach self dirs i rest p = some (.ret (out, none), p') →
      rest.length ≤ (dirs.elems.drop i).length ∧
        chainAll R ((dirs.elems.drop i).take rest.length) p p' := by
  intro rest
  induction rest with
  | nil =>
    intro i p out p' h
    simp only [populateEach, Option.some.injEq, Prod.mk.injEq, Outcome.ret.injEq] at h
    obtain ⟨_, h2⟩ := h
    subst h2
    exact ⟨by simp, by simp [chainAll]⟩
  | cons dep rest ih =>
    intro i p out p' h
    simp only [populateEach] at h
    rcases hd : dirs.elems[i]? with _ | dir
    · simp [hd] at h
    · simp only [hd] at h
      have hi : i < dirs.elems.length := by
        by_contra hcon
        rw [List.getElem?_eq_none (by omega)] at hd
        cases hd
      have hdrop : dirs.elems.drop i = dirs.elems[i] :: dirs.elems.drop (i + 1) :=
        List.drop_eq_getElem_cons hi
      have hdir : dirs.elems[i] = dir := by
        rw [List.getElem?_eq_getElem hi] at hd
        exact Option.some.inj hd
      rcases hs : self dep dir p with _ | ⟨o, p1⟩
      · simp [hs] at h
      · cases o with
        | panic => simp [hs] at h
        | ret r =>
          obtain ⟨dep1, e⟩ := r
          cases e with
          | some e1 => simp [hs] at h
          | none =>
            simp only [hs] at h
            rcases hr : populateEach self dirs (i + 1) rest p1 with _ | ⟨o2, p2⟩
            · simp [hr] at h
            · cases o2 with
              | panic => simp [hr] at h
              | ret r2 =>
                obtain ⟨rest2, e2⟩ := r2
                simp only [hr, Option.some.injEq, Prod.mk.injEq, Outcome.ret.injEq] at h
                obtain ⟨⟨_, h2⟩, h3⟩ := h
                subst h2 h3
                obtain ⟨hl, hc⟩ := ih (i + 1) p1 rest2 p2 hr
                rw [hdrop, hdir]
                refine ⟨by simp only [List.length_cons]; omega, ?_⟩
                simp only [List.length_cons, List.take_succ_cons, chainAll]
                exact ⟨p1, hself dep dir p dep1 p1 hs, hc⟩

theorem populateEach_fails_conv (self : Artifact → String → Proc → Option PopResult)
    (R : String → Proc → Proc → Prop) (F : String → Proc → GoError → Proc → Prop)
    (dirs : Slice String)
    (hself : ∀ a d q a' q', self a d q = some (.ret (a', none), q') → R d q q')
    (hfail : ∀ a d q a' e q', self a d q = some (.ret (a', some e), q') → F d q e q') :
    ∀ (rest : List Artifact) (i : Nat) (p : Proc) (out : List Artifact) (e : GoError)
      (p' : Proc),
      populateEach self dirs i rest p = some (.ret (out, some e), p') →
      ∃ k d q, k < rest.length ∧ dirs.elems[i + k]? = some d ∧
        chainAll R ((dirs.elems.drop i).take k) p q ∧ F d q e p' := by
  intro rest
  induction rest with
  | nil =>
    intro i p out e p' h
    simp [populateEach] at h
  | cons dep rest ih =>
    intro i p out e p' h
    simp only [populateEach] at h
    rcases hd : dirs.elems[i]? with _ | dir
    · simp [hd] at h
    · simp only [hd] at h
      have hi : i < dirs.elems.length := by
        by_contra hcon
        rw [List.getElem?_eq_none (by omega)] at hd
        cases hd
      have hdrop : dirs.elems.drop i = dirs.elems[i] :: dirs.elems.drop (i + 1) :=
        List.drop_eq_getElem_cons hi
      have hdir : dirs.elems[i] = dir := by
        rw [List.getElem?_eq_getElem hi] at hd
        exact Option.some.inj hd
      rcases hs : self dep dir p with _ | ⟨o, p1⟩
      · simp [hs] at h
      · cases o with
        | panic => simp [hs] at h
        | ret r =>
          obtain ⟨dep1, e1⟩ := r
          cases e1 with
          | some e1 =>
            simp only [hs, Option.some.injEq, Prod.mk.injEq, Outcome.ret.injEq] at h
            obtain ⟨⟨_, h2⟩, h3⟩ := h
            subst h2 h3
            exact ⟨0, dir, p, by simp, by simpa using hd, by simp [chainAll],
              hfail dep dir p dep1 e1 p1 hs⟩
          | none =>
            simp only [hs] at h
            rcases hr : populateEach self dirs (i + 1) rest p1 with _ | ⟨o2, p2⟩
            · simp [hr] at h
            · cases o2 with
              | panic => simp [hr] at h
              | ret r2 =>
                obtain ⟨rest2, e2⟩ := r2
                simp only [hr, Option.some.injEq, Prod.mk.injEq, Outcome.ret.injEq] at h
                obtain ⟨⟨_, h2⟩, h3⟩ := h
                subst h2 h3
                obtain ⟨k, d, q, hk, hdk, hc, hf⟩ := ih (i + 1) p1 rest2 e p2 hr
                refine ⟨k + 1, d, q, by simp only [List.length_cons]; omega, ?_, ?_, hf⟩
                · rw [← hdk]
                  congr 1
                  omega
                · rw [hdrop, hdir]
                  simp only [List.take_succ_cons, chainAll]
                  exact ⟨p1, hself dep dir p dep1 p1 hs, hc⟩

/-- A call that returns without an error is a traversal that completes. -/
theorem completes_of_populate (env : Env) :
    ∀ (n : Nat) (a : Artifact) (Dir : String) (p : Proc) (a' : Artifact) (p' : Proc),
      populateDependencyTree env n a Dir p = some (.ret (a', none), p') →
      Completes env n Dir p p' := by
  intro n
  induction n with
  | zero =>
    intro a Dir p a' p' h
    simp [populateDependencyTree] at h
  | succ n ih =>
    intro a Dir p a' p' h
    rw [Completes]
    rcases hf : fetchDependencies env Dir p with ⟨o, p1⟩
    cases o with
    | panic => simp [populateDependencyTree, hf] at h
    | ret fr =>
      obtain ⟨arts, dirs, e⟩ := fr
      cases e with
      | some e => simp [populateDependencyTree, hf] at h
      | none =>
        cases arts with
        | none =>
          simp only [populateDependencyTree, hf, Option.some.injEq, Prod.mk.injEq,
            Outcome.ret.injEq, and_true] at h
          exact h.2.symm
        | some al =>
          simp only [populateDependencyTree, hf] at h
          rcases hr : populateEach (populateDependencyTree env n) dirs 0 al p1
            with _ | ⟨o2, p2⟩
          · simp [hr] at h
          · cases o2 with
            | panic => simp [hr] at h
            | ret r2 =>
              obtain ⟨kids, e2⟩ := r2
              cases e2 with
              | some e => simp [hr] at h
              | none =>
                simp only [hr, Option.some.injEq, Prod.mk.injEq, Outcome.ret.injEq,
                  and_true] at h
                obtain ⟨_, h3⟩ := h
                subst h3
                have hc := populateEach_chain_conv (populateDependencyTree env n)
                  (Completes env n) dirs (fun a d q a' q' hs => ih a d q a' q' hs)
                  al 0 p1 kids p2 hr
                simpa using hc

/-- A call that returns an error is a traversal that reaches a failing
resolver call with that error, and ends in the state that call left. -/
theorem failsAt_of_populate (env : Env) :
    ∀ (n : Nat) (a : Artifact) (Dir : String) (p : Proc) (a' : Artifact) (e : GoError)
      (p' : Proc),
      populateDependencyTree env n a Dir p = some (.ret (a', some e), p') →
      FailsAt env n Dir p e p' := by
  intro n
  induction n with
  | zero =>
    intro a Dir p a' e p' h
    simp [populateDependencyTree] at h
  | succ n ih =>
    intro a Dir p a' e p' h
    rw [FailsAt]
    rcases hf : fetchDependencies env Dir p with ⟨o, p1⟩
    cases o with
    | panic => simp [populateDependencyTree, hf] at h
    | ret fr =>
      obtain ⟨arts, dirs, err⟩ := fr
      cases err with
      | some e1 =>
        simp only [populateDependencyTree, hf, Option.some.injEq, Prod.mk.injEq,
          Outcome.ret.injEq] at h
        obtain ⟨⟨_, h2⟩, h3⟩ := h
        simp only
        exact ⟨h2, h3.symm⟩
      | none =>
        cases arts with
        | none => simp [populateDependencyTree, hf] at h
        | some al =>
          simp only [populateDependencyTree, hf] at h
          rcases hr : populateEach (populateDependencyTree env n) dirs 0 al p1
            with _ | ⟨o2, p2⟩
          · simp [hr] at h
          · cases o2 with
            | panic => simp [hr] at h
            | ret r2 =>
              obtain ⟨kids, e2⟩ := r2
              cases e2 with
              | none => simp [hr] at h
              | some e3 =>
                simp only [hr, Option.some.injEq, Prod.mk.injEq, Outcome.ret.injEq] at h
                obtain ⟨⟨_, h2⟩, h3⟩ := h
                subst h2 h3
                obtain ⟨k, d, q, hk, hd, hc, hfa⟩ := populateEach_fails_conv
                  (populateDependencyTree env n) (Completes env n) (FailsAt env n) dirs
                  (fun a d q a' q' hs => completes_of_populate env n a d q a' q' hs)
                  (fun a d q a' e q' hs => ih a d q a' e q' hs) al 0 p1 kids e3 p2 hr
                simp only
                exact ⟨k, d, q, hk, by simpa using hd, by simpa using hc, hfa⟩

/-! ## Runs of the concrete environments -/

theorem envPQR_dirsExist : DirsExist envPQR := by
  intro c arts dirs err h d hd
  by_cases h1 : c = "/root"
  · subst h1
    have hr : resolveAt envPQR "/root" = .ret resultRoot := rfl
    rw [hr] at h
    simp only [Outcome.ret.injEq, resultRoot, FetchResult.mk.injEq, Option.some.injEq] at h
    obtain ⟨_, h2, _⟩ := h
    subst h2
    simp only [List.mem_cons, List.mem_singleton, List.not_mem_nil, or_false] at hd
    rcases hd with rfl | rfl <;> rfl
  · by_cases h2 : c = "/q"
    · subst h2
      have hr : resolveAt envPQR "/q" =
          .ret ⟨some [Artifact.mk "R" "v1" none], some ["/r"], none⟩ := rfl
      rw [hr] at h
      simp only [Outcome.ret.injEq, FetchResult.mk.injEq, Option.some.injEq] at h
      obtain ⟨_, h3, _⟩ := h
      subst h3
      simp only [List.mem_singleton] at hd
      subst hd
      rfl
    · have hl : lsGrepOutput (envPQR.ls c) = "" := by
        simp only [envPQR, h1, h2, if_false]
        split_ifs <;> rfl
      rw [resolveAt_noManifest envPQR c hl] at h
      simp only [Outcome.ret.injEq, FetchResult.mk.injEq, Option.some.injEq] at h
      obtain ⟨_, h3, _⟩ := h
      subst h3
      simp at hd

theorem envPQR_run :
    populateDependencyTree envPQR 3 (.mk "root" "" none) "/root" procStart =
      some (.ret (.mk "root" "" (some treePQR), none), procEndPQR) := rfl

theorem envDiamond_dirsExist : DirsExist envDiamond := by
  intro c arts dirs err h d hd
  have hC : ∀ x, x = "/a" ∨ x = "/b" →
      resolveAt envDiamond x = .ret ⟨some [Artifact.mk "C" "v1" none], some ["/c"], none⟩ := by
    intro x hx
    rcases hx with rfl | rfl <;> rfl
  by_cases h1 : c = "/a" ∨ c = "/b"
  · rw [hC c h1] at h
    simp only [Outcome.ret.injEq, FetchResult.mk.injEq, Option.some.injEq] at h
    obtain ⟨_, h3, _⟩ := h
    subst h3
    simp only [List.mem_singleton] at hd
    subst hd
    rfl
  · by_cases h2 : c = "/c"
    · subst h2
      have hr : resolveAt envDiamond "/c" =
          .ret ⟨some [Artifact.mk "D" "v1" none], some ["/d"], none⟩ := rfl
      rw [hr] at h
      simp only [Outcome.ret.injEq, FetchResult.mk.injEq, Option.some.injEq] at h
      obtain ⟨_, h3, _⟩ := h
      subst h3
      simp only [List.mem_singleton] at hd
      subst hd
      rfl
    · have hl : lsGrepOutput (envDiamond.ls c) = "" := by
        simp only [not_or] at h1
        simp only [envDiamond, h1.1, h1.2, h2, if_false]
        split_ifs <;> rfl
      rw [resolveAt_noManifest envDiamond c hl] at h
      simp only [Outcome.ret.injEq, FetchResult.mk.injEq, Option.some.injEq] at h
      obtain ⟨_, h3, _⟩ := h
      subst h3
      simp at hd

/-! ## The resolver: claims -/

/-- Claim C4: on every return of `fetchDependencies` the artifact slice and
the directory slice have the same length; when no error is returned, both
are the columns of one list of entries (artifact `i` and directory `i` are
the two fields of entry `i`), and with a manifest that list is the parsed
output of the last command. -/
theorem fetchDependencies_parallel_slices (env : Env) (Dir : String) (p p' : Proc)
    (r : FetchResult) (h : fetchDependencies env Dir p = (.ret r, p')) :
    r.artifacts.len = r.dirs.len ∧
    (r.err = none → ∃ entries : List ArtifactWithDir,
      r.artifacts.elems = entries.map (fun e => e.Artifact) ∧
      r.dirs.elems = entries.map (fun e => e.Dir) ∧
      (∀ i (hi : i < entries.length),
        r.artifacts.elems[i]? = some entries[i].Artifact ∧
        r.dirs.elems[i]? = some entries[i].Dir) ∧
      (lsGrepOutput (env.ls p'.cwd) ≠ "" →
        env.unmarshal (env.goModTidy p'.cwd).1 = .ok (entries.map some))) := by
  have hfst := fetch_fst env Dir p
  have hcwd := (fetch_state env Dir p).1
  rw [h] at hfst hcwd
  simp only at hfst hcwd
  rw [← hcwd] at hfst
  refine ⟨resolveAt_len env p'.cwd r hfst.symm, ?_⟩
  intro herr
  have hcols : ∀ entries : List ArtifactWithDir,
      r.artifacts.elems = entries.map (fun e => e.Artifact) →
      r.dirs.elems = entries.map (fun e => e.Dir) →
      ∀ i (hi : i < entries.length),
        r.artifacts.elems[i]? = some entries[i].Artifact ∧
        r.dirs.elems[i]? = some entries[i].Dir := by
    intro entries h1 h2 i hi
    rw [h1, h2]
    simp [List.getElem?_eq_getElem hi]
  by_cases hm : lsGrepOutput (env.ls p'.cwd) = ""
  · have h0 := resolveAt_noManifest env p'.cwd hm
    rw [← hfst] at h0
    simp only [Outcome.ret.injEq] at h0
    subst h0
    exact ⟨[], rfl, rfl, by intro i hi; simp at hi, fun hne => absurd hm hne⟩
  · obtain ⟨entries, h1, h2, h3⟩ := resolveAt_parsed env p'.cwd r hfst.symm herr hm
    exact ⟨entries, h2, h3, hcols entries h2 h3, fun _ => h1⟩

theorem fetchDependencies_parallel_slices_witness :
    fetchDependencies envPQR "/root" procStart = (.ret resultRoot, procAfterRoot) ∧
    resultRoot.artifacts.len = resultRoot.dirs.len :=
  ⟨rfl, (fetchDependencies_parallel_slices envPQR "/root" procStart procAfterRoot
    resultRoot rfl).1⟩

/-- The calls of one `fetchDependencies`: `os.Chdir`, then the manifest
check, then further commands, all started in the directory that `os.Chdir`
left. -/
theorem fetch_calls (env : Env) (Dir : String) (p : Proc) :
    ∃ t, (fetchDependencies env Dir p).2.trace =
        p.trace ++ Call.chdir Dir :: Call.exec .lsGrep (chdir env Dir p).cwd :: t ∧
      ∀ x ∈ t, ∃ cmd, x = Call.exec cmd (chdir env Dir p).cwd := by
  unfold fetchDependencies
  simp only []
  split
  · exact ⟨[], by simp [exec, chdir], by simp⟩
  · split
    · exact ⟨[Call.exec .goList (chdir env Dir p).cwd], by simp [exec, chdir], by simp⟩
    · have h3 : ∃ t, (exec .goModTidy (exec .goList (exec .lsGrep (chdir env Dir p)))).trace
            = p.trace ++ Call.chdir Dir :: Call.exec .lsGrep (chdir env Dir p).cwd :: t ∧
          ∀ x ∈ t, ∃ cmd, x = Call.exec cmd (chdir env Dir p).cwd :=
        ⟨[Call.exec .goList (chdir env Dir p).cwd, Call.exec .goModTidy (chdir env Dir p).cwd],
          by simp [exec, chdir], by simp⟩
      split
      · exact h3
      · split
        · exact h3
        · split
          · exact h3
          · exact h3

/-- Claim C10: for an existing directory `Dir` and any prior working
directory, `fetchDependencies` first calls `os.Chdir(Dir)`; every command
that follows, the manifest check included, is started in `Dir`; and the
working directory is `Dir` when the call ends, whatever it was before. -/
theorem fetchDependencies_sets_cwd (env : Env) (Dir : String) (p : Proc)
    (hdir : env.dirExists Dir = true) :
    (fetchDependencies env Dir p).2.cwd = Dir ∧
    ∃ t, (fetchDependencies env Dir p).2.trace =
        p.trace ++ Call.chdir Dir :: Call.exec .lsGrep Dir :: t ∧
      ∀ x ∈ t, ∃ cmd, x = Call.exec cmd Dir := by
  have hcwd := (fetch_state env Dir p).1
  obtain ⟨t, htr, hall⟩ := fetch_calls env Dir p
  rw [chdir_cwd_of_exists env Dir p hdir] at hcwd htr hall
  exact ⟨hcwd, t, htr, hall⟩

theorem fetchDependencies_sets_cwd_witness :
    envPQR.dirExists "/q" = true ∧
    (fetchDependencies envPQR "/q" ⟨"/p", []⟩).2.cwd = "/q" :=
  ⟨rfl, (fetchDependencies_sets_cwd envPQR "/q" ⟨"/p", []⟩ rfl).1⟩

/-! ## The tree builder: claims -/

/-- An empty returned artifact slice is the nil slice. -/
theorem fetch_empty_nil (env : Env) (Dir : String) (p p1 : Proc) (arts : Slice Artifact)
    (dirs : Slice String) (err : Option GoError)
    (h : fetchDependencies env Dir p = (.ret ⟨arts, dirs, err⟩, p1)) (h0 : arts.len = 0) :
    arts = none := by
  have hfst := fetch_fst env Dir p
  rw [h] at hfst
  simp only at hfst
  rcases resolveAt_shape env _ _ hfst.symm with ⟨h1, _⟩ | ⟨h1, _⟩ | ⟨e, es, h1, _⟩
  · exact h1
  · exact h1
  · simp only at h1
    subst h1
    simp [Slice.len] at h0

/-- Calling `fetchDependencies` again with the same directory, in the state
that the first call left, returns the same values. -/
theorem fetch_again (env : Env) (Dir : String) (p : Proc) :
    (fetchDependencies env Dir (fetchDependencies env Dir p).2).1 =
      (fetchDependencies env Dir p).1 := by
  rw [fetch_fst, fetch_fst env Dir p]
  have hcwd := (fetch_state env Dir p).1
  congr 1
  simp only [chdir] at hcwd ⊢
  rw [hcwd]
  split <;> simp_all

/-- Claim C6: when `fetchDependencies` succeeds at `Dir` with an empty
artifact slice, `populateDependencyTree` returns no error and leaves the
artifact with the same name and version and an empty, non-nil
`Dependencies`, whatever `Dependencies` held before; a second call on the
result, in the state the first one left, returns that same artifact again. -/
theorem populateDependencyTree_leaf (env : Env) (fuel : Nat) (artifact : Artifact)
    (Dir : String) (p p1 : Proc) (arts : Slice Artifact) (dirs : Slice String)
    (h : fetchDependencies env Dir p = (.ret ⟨arts, dirs, none⟩, p1)) (h0 : arts.len = 0) :
    populateDependencyTree env (fuel + 1) artifact Dir p =
      some (.ret (Artifact.mk artifact.Name artifact.Version (some []), none), p1) ∧
    ∃ p2, populateDependencyTree env (fuel + 1)
        (Artifact.mk artifact.Name artifact.Version (some [])) Dir p1 =
      some (.ret (Artifact.mk artifact.Name artifact.Version (some []), none), p2) := by
  have hnil := fetch_empty_nil env Dir p p1 arts dirs none h h0
  subst hnil
  have hagain := fetch_again env Dir p
  rw [h] at hagain
  simp only at hagain
  rcases h2 : fetchDependencies env Dir p1 with ⟨o, p2⟩
  rw [h2] at hagain
  simp only at hagain
  subst hagain
  refine ⟨?_, p2, ?_⟩
  · simp [populateDependencyTree, h, setDependencies_eq]
  · simp [populateDependencyTree, h2, setDependencies_eq, Artifact.Name, Artifact.Version]

theorem populateDependencyTree_leaf_witness :
    fetchDependencies envPQR "/p" procAfterRoot = (.ret ⟨none, some [], none⟩, procAfterP) ∧
    populateDependencyTree envPQR 1 (Artifact.mk "P" "v1" none) "/p" procAfterRoot =
      some (.ret (Artifact.mk "P" "v1" (some []), none), procAfterP) :=
  ⟨rfl, (populateDependencyTree_leaf envPQR 0 (Artifact.mk "P" "v1" none) "/p" procAfterRoot
    procAfterP none (some []) rfl rfl).1⟩

/-- Claim C7: after a `populateDependencyTree` that returns no error, the
root artifact and every node reachable from it through `Dependencies` has a
non-nil `Dependencies`. -/
theorem populateDependencyTree_no_nil_dependencies (env : Env) (fuel : Nat)
    (artifact a' : Artifact) (Dir : String) (p p' : Proc)
    (h : populateDependencyTree env fuel artifact Dir p = some (.ret (a', none), p')) :
    a'.allSet = true ∧
    ∀ (path : List Nat) (n : Artifact), nodeAt a' path = some n → n.Dependencies ≠ none := by
  have ha := populate_allSet env fuel artifact Dir p a' p' h
  exact ⟨ha, fun path n hn => allSet_dependencies n (nodeAt_allSet path a' n ha hn)⟩

theorem populateDependencyTree_no_nil_dependencies_witness :
    nodeAt (Artifact.mk "root" "" (some treePQR)) [1, 0] = some (Artifact.mk "R" "v1" (some [])) ∧
    (Artifact.mk "R" "v1" (some [])).Dependencies ≠ none :=
  ⟨rfl, (populateDependencyTree_no_nil_dependencies envPQR 3 (.mk "root" "" none)
    (.mk "root" "" (some treePQR)) "/root" procStart procEndPQR envPQR_run).2 [1, 0] _ rfl⟩

/-- Claim C5: the traversal reaches a resolver call that fails with `e`
(the call for the start directory, or one at any depth below it, after
everything before it in traversal order has completed) exactly when
`populateDependencyTree` returns `e` with the artifact unchanged, and the
final state is then the one that the failing resolver call left, so that
nothing is queried after it; an error at the start directory is returned at
once; whenever an error `e` is returned, some call of `fetchDependencies`
returned `e` last and every resolver call before it succeeded; and no error
is returned exactly when the traversal completes, and then every resolver
call of the traversal succeeded. -/
theorem populateDependencyTree_propagates_error (env : Env) (fuel : Nat)
    (artifact : Artifact) (Dir : String) (p : Proc) :
    (∀ e p', FailsAt env fuel Dir p e p' ↔
      populateDependencyTree env fuel artifact Dir p =
        some (.ret (artifact, some e), p')) ∧
    (∀ arts dirs e p1, fetchDependencies env Dir p = (.ret ⟨arts, dirs, some e⟩, p1) →
      populateDependencyTree env (fuel + 1) artifact Dir p =
        some (.ret (artifact, some e), p1)) ∧
    (∀ a' e p', populateDependencyTree env fuel artifact Dir p = some (.ret (a', some e), p') →
      a' = artifact ∧
      ∃ d q t0 arts dirs, q.trace = p.trace ++ t0 ∧ AllOk env t0 ∧
        fetchDependencies env d q = (.ret ⟨arts, dirs, some e⟩, p')) ∧
    (∀ p', Completes env fuel Dir p p' ↔
      ∃ a', populateDependencyTree env fuel artifact Dir p = some (.ret (a', none), p')) ∧
    (∀ a' p', populateDependencyTree env fuel artifact Dir p = some (.ret (a', none), p') →
      ∃ t, p'.trace = p.trace ++ t ∧ AllOk env t) := by
  refine ⟨?_, ?_, ?_, ?_, ?_⟩
  · intro e p'
    exact ⟨fun h => populate_of_failsAt env fuel Dir p p' e artifact h,
      fun h => failsAt_of_populate env fuel artifact Dir p artifact e p' h⟩
  · intro arts dirs e p1 h
    simp [populateDependencyTree, h]
  · intro a' e p' h
    obtain ⟨h1, h2⟩ := populate_trace env fuel artifact Dir p a' (some e) p' h
    exact ⟨h2 (by simp), h1⟩
  · intro p'
    exact ⟨fun h => populate_of_completes env fuel Dir p p' artifact h,
      fun ⟨a', h⟩ => completes_of_populate env fuel artifact Dir p a' p' h⟩
  · intro a' p' h
    exact (populate_trace env fuel artifact Dir p a' none p' h).1

/-- In `envFail` the traversal from `/root` completes `/p` and then reaches
the failing resolver call for `/q`, one level below the start. -/
theorem envFail_failsAt :
    FailsAt envFail 2 "/root" procStart "exit status 1" procEndFail := by
  have hroot : fetchDependencies envFail "/root" procStart =
      (.ret ⟨some [Artifact.mk "P" "v1" none, Artifact.mk "Q" "v2" none,
        Artifact.mk "S" "v3" none], some ["/p", "/q", "/s"], none⟩, procAfterRoot) := rfl
  have hp : fetchDependencies envFail "/p" procAfterRoot =
      (.ret ⟨none, some [], none⟩, procAfterP) := rfl
  have hq : fetchDependencies envFail "/q" procAfterP =
      (.ret ⟨none, some [], some "exit status 1"⟩, procEndFail) := rfl
  rw [FailsAt, hroot]
  refine ⟨1, "/q", procAfterP, by decide, rfl, ?_, ?_⟩
  · refine ⟨procAfterP, ?_, rfl⟩
    rw [Completes, hp]
  · rw [FailsAt, hq]
    exact ⟨rfl, rfl⟩

theorem populateDependencyTree_propagates_error_witness :
    FailsAt envFail 2 "/root" procStart "exit status 1" procEndFail ∧
    populateDependencyTree envFail 2 (Artifact.mk "root" "" none) "/root" procStart =
      some (.ret (Artifact.mk "root" "" none, some "exit status 1"), procEndFail) ∧
    "/s" ∉ visited procEndFail.trace ∧
    ∃ d q t0 arts dirs, q.trace = procStart.trace ++ t0 ∧ AllOk envFail t0 ∧
      fetchDependencies envFail d q = (.ret ⟨arts, dirs, some "exit status 1"⟩, procEndFail) :=
  ⟨envFail_failsAt,
    ((populateDependencyTree_propagates_error envFail 2 (Artifact.mk "root" "" none) "/root"
      procStart).1 "exit status 1" procEndFail).1 envFail_failsAt,
    by decide,
    ((populateDependencyTree_propagates_error envFail 2 (Artifact.mk "root" "" none) "/root"
      procStart).2.2.1 _ _ _ rfl).2⟩

/-- Claim C1: where every directory that the resolver returns exists,
`populateDependencyTree` returns no error exactly when the recursive
unfolding of the resolver at `Dir` exists within the bound, and it then
leaves the name and version unchanged and `Dependencies` equal to that
unfolding: child `i` has the name and version of the i-th returned artifact
and the unfolding at the i-th returned directory, at every level. -/
theorem populateDependencyTree_unfolds (env : Env) (hex : DirsExist env) (fuel : Nat)
    (artifact a' : Artifact) (Dir : String) (p : Proc) (hdir : env.dirExists Dir = true) :
    (∃ p', populateDependencyTree env fuel artifact Dir p = some (.ret (a', none), p')) ↔
    ∃ deps, unfoldTree env fuel Dir = some deps ∧
      a' = Artifact.mk artifact.Name artifact.Version (some deps) := by
  constructor
  · rintro ⟨p', h⟩
    obtain ⟨deps, h1, h2, _⟩ := populate_success env hex fuel artifact Dir p a' p' hdir h
    exact ⟨deps, h1, h2⟩
  · rintro ⟨deps, h1, h2⟩
    subst h2
    exact populate_complete env hex fuel Dir deps hdir h1 artifact p

theorem populateDependencyTree_unfolds_witness :
    DirsExist envPQR ∧ envPQR.dirExists "/root" = true ∧
    unfoldTree envPQR 3 "/root" = some treePQR ∧
    ∃ p', populateDependencyTree envPQR 3 (Artifact.mk "root" "" none) "/root" procStart =
      some (.ret (Artifact.mk "root" "" (some treePQR), none), p') :=
  ⟨envPQR_dirsExist, rfl, rfl,
    (populateDependencyTree_unfolds envPQR envPQR_dirsExist 3 (Artifact.mk "root" "" none)
      (Artifact.mk "root" "" (some treePQR)) "/root" procStart rfl).2 ⟨treePQR, rfl, rfl⟩⟩

/-- With fuel for one call only, `populateDependencyTree` returns exactly
when the resolver does not report a dependency. -/
theorem populate_one (env : Env) (a : Artifact) (Dir : String) (p : Proc)
    (hdir : env.dirExists Dir = true) :
    (∃ r, populateDependencyTree env 1 a Dir p = some r) ↔
    ¬ ∃ al dirs, resolveAt env Dir = .ret ⟨some al, dirs, none⟩ := by
  have hf := fetch_fst env Dir p
  rw [chdir_cwd_of_exists env Dir p hdir] at hf
  rcases hfd : fetchDependencies env Dir p with ⟨o, p1⟩
  rw [hfd] at hf
  simp only at hf
  rw [← hf]
  cases o with
  | panic => simp [populateDependencyTree, hfd]
  | ret fr =>
    obtain ⟨arts, dirs, e⟩ := fr
    cases e with
    | some e => simp [populateDependencyTree, hfd]
    | none =>
      cases arts with
      | none => simp [populateDependencyTree, hfd]
      | some al =>
        obtain ⟨dl, hdl, hlen, _, hne⟩ := resolveAt_some env Dir al dirs none hf.symm
        subst hdl
        cases al with
        | nil => exact absurd rfl hne
        | cons x xs =>
          cases dl with
          | nil => simp at hlen
          | cons d ds =>
            simp [populateDependencyTree, hfd, populateEach, Slice.elems]

/-- Where every directory that the resolver returns exists, the traversal
from a directory below which the relation "d lists a dependency installed
at d2" is well-founded returns, with an amount of fuel that serves every
artifact and state; a traversal that returns no error only starts at such a
directory; and with fuel for one call only, the call returns exactly when
the resolver reports no dependency. -/
theorem populate_terminates_of_dirsExist (env : Env) (hex : DirsExist env) (Dir : String)
    (hdir : env.dirExists Dir = true) :
    (Acc (fun d2 d => Lists env d d2) Dir →
      ∃ fuel, ∀ artifact p, ∃ r, populateDependencyTree env fuel artifact Dir p = some r) ∧
    (∀ fuel artifact p a' p',
      populateDependencyTree env fuel artifact Dir p = some (.ret (a', none), p') →
      Acc (fun d2 d => Lists env d d2) Dir) ∧
    (∀ artifact p, (∃ r, populateDependencyTree env 1 artifact Dir p = some r) ↔
      ¬ ∃ al dirs, resolveAt env Dir = .ret ⟨some al, dirs, none⟩) := by
  refine ⟨fun hacc => populate_returns_of_acc env hex Dir hacc hdir, ?_,
    fun a p => populate_one env a Dir p hdir⟩
  intro fuel a p a' p' h
  obtain ⟨deps, h1, _⟩ := populate_success env hex fuel a Dir p a' p' hdir h
  exact acc_of_unfoldTree env fuel Dir deps h1

theorem populate_terminates_envPQR :
    DirsExist envPQR ∧ envPQR.dirExists "/root" = true ∧
    Acc (fun d2 d => Lists envPQR d d2) "/root" ∧
    ∃ fuel, ∀ artifact p, ∃ r, populateDependencyTree envPQR fuel artifact "/root" p = some r :=
  ⟨envPQR_dirsExist, rfl, acc_of_unfoldTree envPQR 3 "/root" treePQR rfl,
    (populate_terminates_of_dirsExist envPQR envPQR_dirsExist "/root" rfl).1
      (acc_of_unfoldTree envPQR 3 "/root" treePQR rfl)⟩

/-- The loop of `main` returns a forest whenever the unfolding of every
top-level directory exists within the bound. -/
theorem populateForest_complete (env : Env) (hex : DirsExist env) (fuel : Nat)
    (dirs : Slice String) (hdirs : ∀ d ∈ dirs.elems, env.dirExists d = true) :
    ∀ (rest : List Artifact) (i : Nat) (acc : Slice Artifact) (p : Proc)
      (out : List Artifact),
      unfoldKids (unfoldTree env fuel) rest (dirs.elems.drop i) = some out →
      ∃ forest p', populateForest env fuel dirs i rest acc p = some (.ret forest, p') := by
  intro rest
  induction rest with
  | nil =>
    intro i acc p out _
    exact ⟨acc, p, rfl⟩
  | cons a rest ih =>
    intro i acc p out h
    cases hd : dirs.elems.drop i with
    | nil => simp [hd, unfoldKids] at h
    | cons d dl =>
      have hi : i < dirs.elems.length := by
        by_contra hcon
        rw [List.drop_eq_nil_of_le (by omega)] at hd
        cases hd
      have hd2 := List.drop_eq_getElem_cons hi
      rw [hd] at hd2
      simp only [List.cons.injEq] at hd2
      obtain ⟨hd3, hd4⟩ := hd2
      subst hd3 hd4
      simp only [hd, unfoldKids] at h
      cases hf : unfoldTree env fuel dirs.elems[i] with
      | none => simp [hf] at h
      | some sub =>
        cases hk : unfoldKids (unfoldTree env fuel) rest (dirs.elems.drop (i + 1)) with
        | none => simp [hf, hk] at h
        | some rest2 =>
          obtain ⟨p1, hs⟩ := populate_complete env hex fuel dirs.elems[i] sub
            (hdirs _ (List.getElem_mem hi)) hf a p
          obtain ⟨forest, p2, hr⟩ := ih (i + 1) (acc.push (Artifact.mk a.Name a.Version (some sub)))
            p1 rest2 hk
          exact ⟨forest, p2, by
            simp only [populateForest, List.getElem?_eq_getElem hi, hs, hr]⟩

/-- Claim C9: where every directory that the resolver returns exists and
the unfolding of every top-level directory exists (no cycle and no failing
resolver call below it), let two different top-level entries both reach,
along some paths, entries with the same name, version and directory `dC`.
Then the loop of `main` returns a forest that has a node at each of the two
positions, the two nodes are equal (name, version and `Dependencies`), and
the resolver was called once per directory occurrence of the unfolded
forest, in pre-order, so at least twice for `dC`. -/
theorem populateForest_duplicates_shared (env : Env) (hex : DirsExist env) (fuel : Nat)
    (arts : List Artifact) (dirs : Slice String) (p : Proc) (out : List Artifact)
    (hdirs : ∀ d ∈ dirs.elems, env.dirExists d = true)
    (hunf : unfoldKids (unfoldTree env fuel) arts dirs.elems = some out)
    (iA iB : Nat) (hne : iA ≠ iB) (A B : Artifact) (dA dB : String)
    (hA : arts[iA]? = some A) (hdA : dirs.elems[iA]? = some dA)
    (hB : arts[iB]? = some B) (hdB : dirs.elems[iB]? = some dB)
    (pathA pathB : List Nat) (cA cB : Artifact) (dC : String)
    (hpA : entryAt env A dA pathA = some (cA, dC))
    (hpB : entryAt env B dB pathB = some (cB, dC))
    (hname : cA.Name = cB.Name) (hversion : cA.Version = cB.Version) :
    ∃ forest p' A' B' n,
      populateForest env fuel dirs 0 arts none p = some (.ret forest, p') ∧
      forest.elems = out ∧
      forest.elems[iA]? = some A' ∧ forest.elems[iB]? = some B' ∧
      nodeAt A' pathA = some n ∧ nodeAt B' pathB = some n ∧
      n.Name = cA.Name ∧ n.Version = cA.Version ∧ n.Dependencies ≠ none ∧
      visited p'.trace = visited p.trace ++ dirs.elems.flatMap (dirPreorder env fuel) ∧
      2 ≤ (dirs.elems.flatMap (dirPreorder env fuel)).count dC := by
  obtain ⟨hlen, _, hall⟩ := unfoldKids_some _ arts dirs.elems out hunf
  obtain ⟨forest, p', h⟩ := populateForest_complete env hex fuel dirs hdirs arts 0 none p out
    (by simpa using hunf)
  obtain ⟨out2, hk, hfo, hv⟩ := populateForest_success env hex fuel dirs hdirs arts 0 none p
    forest p' (by simpa using hlen) h
  simp only [List.drop_zero] at hk hv
  rw [hunf] at hk
  simp only [Option.some.injEq] at hk
  subst hk
  obtain ⟨subA, hsA, hoA⟩ := hall iA A dA hA hdA
  obtain ⟨subB, hsB, hoB⟩ := hall iB B dB hB hdB
  obtain ⟨m1, s1, hu1, hn1⟩ := nodeAt_unfold env pathA fuel A dA subA cA dC hsA hpA
  obtain ⟨m2, s2, hu2, hn2⟩ := nodeAt_unfold env pathB fuel B dB subB cB dC hsB hpB
  have hs : s1 = s2 := unfoldTree_unique env m1 m2 dC s1 s2 hu1 hu2
  subst hs
  have hmA := mem_dirPreorder env pathA fuel A dA subA cA dC hsA hpA
  have hmB := mem_dirPreorder env pathB fuel B dB subB cB dC hsB hpB
  have hfe : forest.elems = out := by simpa [Slice.elems] using hfo
  refine ⟨forest, p', _, _, Artifact.mk cA.Name cA.Version (some s1), h, hfe,
    by rw [hfe]; exact hoA, by rw [hfe]; exact hoB, hn1,
    by rw [hname, hversion]; exact hn2, rfl, rfl, by simp [Artifact.Dependencies], hv, ?_⟩
  rcases Nat.lt_or_gt_of_ne hne with hlt | hgt
  · exact count_flatMap_two _ dC dirs.elems iA iB dA dB hlt hdA hdB hmA hmB
  · exact count_flatMap_two _ dC dirs.elems iB iA dB dA hgt hdB hdA hmB hmA

theorem populateForest_duplicates_shared_witness :
    unfoldKids (unfoldTree envDiamond 3) [Artifact.mk "A" "v1" none, Artifact.mk "B" "v1" none]
      ["/a", "/b"] = forestDiamond ∧
    populateForest envDiamond 3 (some ["/a", "/b"]) 0
        [Artifact.mk "A" "v1" none, Artifact.mk "B" "v1" none] none procStart =
      some (.ret forestDiamond, procEndDiamond) ∧
    (visited procEndDiamond.trace).count "/c" = 2 ∧
    ∃ forest p' A' B' n,
      populateForest envDiamond 3 (some ["/a", "/b"]) 0
        [Artifact.mk "A" "v1" none, Artifact.mk "B" "v1" none] none procStart =
        some (.ret forest, p') ∧
      forest.elems = forestDiamond.elems ∧
      forest.elems[0]? = some A' ∧ forest.elems[1]? = some B' ∧
      nodeAt A' [0] = some n ∧ nodeAt B' [0] = some n ∧
      n.Name = "C" ∧ n.Version = "v1" ∧ n.Dependencies ≠ none ∧
      visited p'.trace = visited procStart.trace ++
        (Slice.elems (some ["/a", "/b"])).flatMap (dirPreorder envDiamond 3) ∧
      2 ≤ ((Slice.elems (some ["/a", "/b"])).flatMap (dirPreorder envDiamond 3)).count "/c" :=
  ⟨rfl, rfl, by decide,
    populateForest_duplicates_shared envDiamond envDiamond_dirsExist 3
      [Artifact.mk "A" "v1" none, Artifact.mk "B" "v1" none] (some ["/a", "/b"])
      procStart forestDiamond.elems
      (fun d hd => by
        simp only [Slice.elems, List.mem_cons, List.mem_singleton, List.not_mem_nil,
          or_false] at hd
        rcases hd with rfl | rfl <;> rfl)
      rfl
      0 1 (by decide) (Artifact.mk "A" "v1" none) (Artifact.mk "B" "v1" none) "/a" "/b"
      rfl rfl rfl rfl [0] [0] (Artifact.mk "C" "v1" none) (Artifact.mk "C" "v1" none) "/c"
      rfl rfl rfl rfl⟩

/-! ## Where the resolver departs from its description -/

/-- The text of the listing has no influence on what `fetchDependencies`
returns: only its error is looked at. -/
theorem fetch_listing_text_unused (env : Env) (text : String → String) (Dir : String)
    (p : Proc) :
    fetchDependencies { env with goList := fun c => (text c, (env.goList c).2) } Dir p =
      fetchDependencies env Dir p := rfl

/-- Claim C2, at a failing input: the directory `/proj` has a manifest, the
listing succeeds and decodes to the dependency `P`, the reconciliation
succeeds; `fetchDependencies` decodes the (empty) output of the
reconciliation instead of the listing and returns the decoding error and no
artifact. -/
theorem fetchDependencies_discards_listing :
    (envListing.goList "/proj").2 = none ∧ (envListing.goModTidy "/proj").2 = none ∧
    lsGrepOutput (envListing.ls "/proj") = "go.mod\n" ∧
    (match envListing.unmarshal (envListing.goList "/proj").1 with
      | .ok [some e] => e.Artifact.Name = "P" ∧ e.Artifact.Version = "v1" ∧ e.Dir = "/p"
      | _ => False) ∧
    fetchDependencies envListing "/proj" ⟨"/", []⟩ =
      (.ret ⟨none, some [], some "unexpected end of JSON input"⟩, procEndListing) :=
  ⟨rfl, rfl, by decide, ⟨rfl, rfl, rfl⟩, rfl⟩

/-- When `grep go.mod` selects no entry name, `fetchDependencies` returns
the empty result without an error. -/
theorem fetch_no_selected_line (env : Env) (Dir : String) (p : Proc)
    (h : ∀ n ∈ env.ls (chdir env Dir p).cwd, grepGoMod n.data = false) :
    (fetchDependencies env Dir p).1 = .ret ⟨none, some [], none⟩ := by
  rw [fetch_fst]
  apply resolveAt_noManifest
  have hf : (env.ls (chdir env Dir p).cwd).filter (fun n => grepGoMod n.data) = [] := by
    rw [List.filter_eq_nil_iff]
    intro n hn
    simp [h n hn]
  simp [lsGrepOutput, hf, String.join]

/-- Claim C3, at a failing input: the directory `/dep` holds no file named
`go.mod`, yet the manifest check selects the line `go.mod.bak`, the
commands are run and `fetchDependencies` returns an error. -/
theorem fetchDependencies_manifest_by_pattern :
    "go.mod" ∉ envBak.ls "/dep" ∧
    lsGrepOutput (envBak.ls "/dep") = "go.mod.bak\n" ∧
    fetchDependencies envBak "/dep" ⟨"/", []⟩ =
      (.ret ⟨none, some [], some "exit status 1"⟩, procEndBak) :=
  ⟨by decide, by decide, rfl⟩

/-! ## A returned directory that does not exist -/

end DepTree
